import Mathlib

/-!
A shallow Lean embedding of the core of the `mongodb-odm` library: the
query/document sanitizer (`src/utils/sanitizeQuery.ts`), the aggregation
pipeline factory (`core/Aggregation`), and the document lifecycle engine
(`core/Model`: insert/update/delete with hooks, validation and cascading
deletion), together with theorems checking the natural-language
specification against that code.

Modelling conventions:
* JavaScript objects are association lists `List (String × Value)`; real JS
  objects never carry duplicate keys, so theorems that depend on key
  uniqueness take a `Nodup` hypothesis on the key list.
* MongoDB `ObjectID` values are represented by their canonical (lowercase)
  24-character hexadecimal string.
* Field values are modelled by the basic scalar values of the library's
  `FieldBasicValue` type (null, booleans, numbers, strings, object ids,
  dates); none of the operations verified here descends into a value.
* Fallible code returns `Except String`; operations that touch the
  database thread an explicit `Store` (collection name → list of
  documents) and return the store alongside the `Except` result, so that a
  thrown error leaves the partially mutated store observable.
* `Date` construction (`new Date()`) is modelled by an explicit `now : Nat`
  parameter, and the bcrypt hash of the external `bcrypt` library by a
  tagging function on the string form of the value.
-/

namespace MongoDBODM

/-- Model of a MongoDB `ObjectID`: its canonical (lowercase) 24-character
hexadecimal representation. -/
structure ObjectID where
  hex : String
deriving DecidableEq, Repr

/-- The ten decimal digit characters. -/
def decimalChars : List Char :=
  ['9', '8', '7', '6', '5', '4', '3', '2', '1', '0'].reverse

/-- The six lowercase hex letter characters. -/
def lowerHexLetterChars : List Char :=
  ['f', 'e', 'd', 'c', 'b', 'a'].reverse

/-- The characters allowed in the canonical (lowercase) hex form of an
`ObjectID`. -/
def canonicalHexChars : List Char :=
  decimalChars ++ lowerHexLetterChars

/-- The uppercase hex digits (also accepted by the `ObjectID` string
constructor, which matches `[0-9a-fA-F]`). -/
def upperHexChars : List Char :=
  ['A', 'B', 'C', 'D', 'E', 'F']

/-- A character allowed in the canonical (lowercase) hex form of an
`ObjectID`. -/
def isCanonicalHexChar (c : Char) : Bool :=
  canonicalHexChars.contains c

/-- A character accepted by the `ObjectID` string constructor (hex digits of
either case). -/
def isHexCharCI (c : Char) : Bool :=
  canonicalHexChars.contains c || upperHexChars.contains c

/-- The string is a canonical lowercase `ObjectID` hex string: this is the
shape `ObjectID.toString` always produces. -/
def isCanonicalObjectIDHex (s : String) : Bool :=
  s.length == 24 && s.data.all isCanonicalHexChar

/-- The string is accepted by `new ObjectID(string)`: 24 hex characters of
either case. -/
def isValidObjectIDString (s : String) : Bool :=
  s.length == 24 && s.data.all isHexCharCI

/-- Lower-case a single hex character (model of the case normalisation the
`ObjectID` constructor performs on its hex input). -/
def hexCharToLower (c : Char) : Char :=
  if upperHexChars.contains c then Char.ofNat (c.toNat + 32) else c

/-- Lower-case a hex string. -/
def hexToLower (s : String) : String :=
  ⟨s.data.map hexCharToLower⟩

/-- Model of `id.toString()` / `id.toHexString()` on an `ObjectID`: the
canonical lowercase hex string. -/
def ObjectID.str (o : ObjectID) : String := o.hex

/-- Model of `new ObjectID(string)`: succeeds exactly on 24-character hex
strings and normalises them to canonical lowercase form; on anything else
the constructor throws. -/
def parseObjectID (s : String) : Option ObjectID :=
  if isValidObjectIDString s then some ⟨hexToLower s⟩ else none

/-- The basic field values of the library (`FieldBasicValue`:
`null | ObjectID | string | number | boolean | Date`).  Dates are modelled
by their timestamp. -/
inductive Value where
  | vNull
  | vBool (b : Bool)
  | vNum (n : Int)
  | vStr (s : String)
  | vOid (o : ObjectID)
  | vDate (t : Nat)
deriving DecidableEq, Repr

/-- JavaScript truthiness of a basic value (used by the source in places
such as `if (field.default)`). -/
def valueTruthy : Value → Bool
  | .vNull => false
  | .vBool b => b
  | .vNum n => n != 0
  | .vStr s => s != ""
  | .vOid _ => true
  | .vDate _ => true

/-- A crude string form of a value, used only by the model of external
stringification (template literals feeding `bcrypt.hash`). -/
def valueToString : Value → String
  | .vNull => "null"
  | .vBool b => if b then "true" else "false"
  | .vNum n => toString n
  | .vStr s => s
  | .vOid o => o.hex
  | .vDate t => toString t

/-- A JavaScript plain object: an association list of fields.  Real JS
objects have pairwise distinct keys. -/
abbrev Obj := List (String × Value)

/-- `o.hasOwnProperty k`. -/
def hasKey (o : Obj) (k : String) : Bool :=
  o.any (fun kv => kv.1 == k)

/-- Reading `o[k]` (first binding wins, as in a real object where keys are
unique). -/
def getKey (o : Obj) (k : String) : Option Value :=
  (o.find? (fun kv => kv.1 == k)).map Prod.snd

/-- `delete o[k]`: removes every binding of `k` (a real object has at most
one). -/
def deleteKey (o : Obj) (k : String) : Obj :=
  o.filter (fun kv => kv.1 != k)

/-- Assignment `o[k] = v`: replaces the binding of `k` in place if present,
otherwise appends it (insertion order of JS objects). -/
def setKey (o : Obj) (k : String) (v : Value) : Obj :=
  if hasKey o k then o.map (fun kv => if kv.1 == k then (k, v) else kv)
  else o ++ [(k, v)]

/-- The declared type of a field (`FieldBasicType`; nested sub-document
types are not exercised by the verified operations). -/
inductive FieldType where
  | tString | tNumber | tBoolean | tDate | tObjectID | tArray
deriving DecidableEq, Repr

/-- The validation strategy of a field
(`FieldValidationStrategy = RegExp | number | any[] | FieldValidationFunction`).
A regular expression is modelled by the predicate it decides. -/
inductive FieldValidationStrategy where
  | pattern (accepts : String → Bool)
  | bound (n : Int)
  | allowed (vals : List Value)
  | pred (f : Value → Bool)

/-- `FieldSpecs` of the schema: per-field type, foreign-key reference,
required/encrypted flags, default value, format function, validation
strategy and random-value generator.  A default-producing function is
modelled by the value it produces, likewise the random generator. -/
structure FieldSpecs where
  type : FieldType := .tString
  ref : Option String := none
  required : Bool := false
  encrypted : Bool := false
  default : Option Value := none
  format : Option (Value → Value) := none
  validate : Option FieldValidationStrategy := none
  random : Option Value := none

/-- An index descriptor of the schema (`SchemaIndex`): the indexed key spec
and whether the index is unique. -/
structure SchemaIndex where
  spec : List String
  unique : Bool := false

/-- The `Schema` of a model: entity name, backing collection, behavioral
flags, cascade targets, ordered field mapping and indexes.  Optional
boolean flags are `Option Bool` because the source distinguishes absent
flags from explicit `true` (`=== true` checks). -/
structure Schema where
  model : String
  collection : String
  timestamps : Bool := false
  allowUpsert : Option Bool := none
  noInserts : Option Bool := none
  noInsertMany : Option Bool := none
  noUpdates : Option Bool := none
  noUpdateMany : Option Bool := none
  noDeletes : Option Bool := none
  noDeleteMany : Option Bool := none
  cascade : Option (List String) := none
  fields : List (String × FieldSpecs)
  indexes : List SchemaIndex := []

/-- `schema.fields.hasOwnProperty key`. -/
def Schema.hasField (s : Schema) (k : String) : Bool :=
  s.fields.any (fun kv => kv.1 == k)

/-- `schema.fields[key]`. -/
def Schema.fieldSpecs (s : Schema) (k : String) : Option FieldSpecs :=
  (s.fields.find? (fun kv => kv.1 == k)).map Prod.snd

/-- The model registry configured at startup (`options.models`), mapping a
model name to its model class; only the schema of a class matters here. -/
abbrev Registry := List (String × Schema)

/-- Model of `getModel(modelOrCollectionName)` from the configuration
module: look the name up among the registered model names first, then
among the backing collection names, and throw if neither matches.  The
returned model class is represented by its schema. -/
def getModelS (reg : Registry) (name : String) : Except String Schema :=
  match (reg.find? (fun kv => kv.1 == name)).map Prod.snd with
  | some s => .ok s
  | none =>
    match (reg.find? (fun kv => kv.2.collection == name)).map Prod.snd with
    | some s => .ok s
    | none => .error ("No model found for model/collection name " ++ name)

/-- A caller-supplied query
(`Query = string | ObjectID | FilterQuery`): a bare identifier, its string
form, or a structured filter object. -/
inductive Query where
  | qId (o : ObjectID)
  | qStr (s : String)
  | qObj (o : Obj)
deriving DecidableEq, Repr

/-- JavaScript truthiness of a query value (an object or `ObjectID` is
always truthy; a string is truthy iff nonempty). -/
def queryTruthy : Query → Bool
  | .qId _ => true
  | .qStr s => s != ""
  | .qObj _ => true

/-- The keys the strict branch of `sanitizeQuery` keeps: `_id`, the
timestamp keys when the schema enables timestamps, and every key declared
in the schema's field mapping. -/
def keepKey (schema : Schema) (k : String) : Bool :=
  k == "_id" ||
  (schema.timestamps && k == "createdAt") ||
  (schema.timestamps && k == "updatedAt") ||
  schema.hasField k

/-- The strict-mode key-deletion loop of `sanitizeQuery`
(`for (const key in o) { ... delete o[key] }`), iterating over the list of
keys of the object and deleting, in place, each one that is not kept. -/
def stripKeys (schema : Schema) (o : Obj) : List String → Obj
  | [] => o
  | k :: rest =>
    if keepKey schema k then stripKeys schema o rest
    else stripKeys schema (deleteKey o k) rest

/-- `sanitizeQuery(schema, query, { strict })` from
`src/utils/sanitizeQuery.ts`: wraps a bare `ObjectID` into `{_id: ...}`,
parses an identifier string (the `ObjectID` constructor throws on invalid
strings), and otherwise, in strict mode, deletes every key of the object
that is not in the schema and not an identifier/timestamp key. -/
def sanitizeQuery (schema : Schema) (query : Query) (strict : Bool := true) :
    Except String Obj :=
  match query with
  | .qId o => .ok [("_id", .vOid o)]
  | .qStr s =>
    match parseObjectID s with
    | some o => .ok [("_id", .vOid o)]
    | none => .error "Argument passed in must be a single String of 12 bytes or a string of 24 hex characters"
  | .qObj o =>
    if strict then .ok (stripKeys schema o (o.map Prod.fst)) else .ok o

/-! ### A reference-level (heap) model of `sanitizeQuery` on objects

The source mutates the caller's object (`delete o[key]`) and returns the
very same reference.  To state that aliasing behaviour, objects live in an
explicit heap of JS objects addressed by references. -/

/-- A heap of JavaScript objects, addressed by numeric references. -/
abbrev Heap := Nat → Obj

/-- Overwrite the object a reference points to. -/
def heapSet (h : Heap) (r : Nat) (o : Obj) : Heap :=
  Function.update h r o

/-- The strict-mode deletion loop of `sanitizeQuery`, acting on the heap:
each `delete o[key]` mutates the object behind the reference `r`. -/
def heapStripKeys (schema : Schema) (h : Heap) (r : Nat) : List String → Heap
  | [] => h
  | k :: rest =>
    if keepKey schema k then heapStripKeys schema h r rest
    else heapStripKeys schema (heapSet h r (deleteKey (h r) k)) r rest

/-- The object branch of `sanitizeQuery`, at the reference level: in strict
mode run the deletion loop over the keys of the input object and return the
input reference itself (`return o`); in non-strict mode return the input
reference with the heap untouched. -/
def sanitizeQueryObjRef (schema : Schema) (strict : Bool) (h : Heap) (r : Nat) :
    Heap × Nat :=
  if strict then (heapStripKeys schema h r ((h r).map Prod.fst), r) else (h, r)

/-! ### Aggregation pipeline factory (`core/Aggregation`) -/

/-- One aggregation pipeline stage, as produced by the stage factories:
`$lookup`, `$unwind`, `$match`, `$group` or `$sort` descriptors. -/
inductive Stage where
  | lookupStage (fromColl localField foreignField asField : String)
  | unwindStage (path : String) (preserveNullAndEmptyArrays : Bool)
  | matchStage (query : Obj)
  | groupStage (specs : Obj)
  | sortStage (specs : Obj)
deriving DecidableEq, Repr

/-- `AggregationPipeline`: an ordered list of stages. -/
abbrev Pipeline := List Stage

/-- The key-prefixing loop of `matchStageFactory`
(`query[prefix + key] = sanitized[key]`), building a fresh object by
assignment. -/
def prefixAssignLoop (pfx : String) (sanitized : Obj) : Obj :=
  sanitized.foldl (fun acc kv => setKey acc (pfx ++ kv.1) kv.2) []

/-- `Aggregation.matchStageFactory(schema, specs, { prefix })`: sanitize the
specs in non-strict mode, prefix every resulting key, and emit one `$match`
stage. -/
def matchStageFactory (schema : Schema) (specs : Query) (pfx : String := "") :
    Except String Pipeline :=
  match sanitizeQuery schema specs false with
  | .error e => .error e
  | .ok sanitized => .ok [.matchStage (prefixAssignLoop pfx sanitized)]

/-- A `LookupStageFactorySpecs` value for one field: either `true`
(populate this reference field) or a nested specs object (populate and
recurse into the referenced schema). -/
inductive LookupSpecEntry where
  | terminal
  | nested (entries : List (String × LookupSpecEntry))

/-- `fields[key] && fields[key].ref`, with JavaScript truthiness: the
reference is usable only if the field exists and its `ref` is a nonempty
string. -/
def fieldRef (fs : Option FieldSpecs) : Option String :=
  match fs with
  | none => none
  | some fs =>
    match fs.ref with
    | none => none
    | some r => if r == "" then none else some r

mutual

/-- The recursive descent of `lookupStageFactory` for one spec entry:
`true` contributes nothing beyond the pair already emitted; a nested specs
object recurses into the referenced schema. -/
def lookupStageEntry (reg : Registry) (schemaRef : Schema) :
    LookupSpecEntry → String → String → Except String Pipeline
  | .terminal, _, _ => .ok []
  | .nested entries, fp, tp => lookupStageFactory reg schemaRef entries fp tp
  termination_by e _ _ => sizeOf e
  decreasing_by all_goals (simp <;> omega)

/-- `Aggregation.lookupStageFactory(schema, specs, { fromPrefix, toPrefix })`:
for each spec entry emit a `$lookup` against the referenced model's
collection followed by a null-preserving `$unwind`, recursing into the
referenced schema (with the target path as the new prefix) when the entry
is a nested specs object. -/
def lookupStageFactory (reg : Registry) (schema : Schema) :
    List (String × LookupSpecEntry) → String → String →
    Except String Pipeline
  | [], _, _ => .ok []
  | (key, val) :: rest, fromPfx, toPfx =>
    match fieldRef (schema.fieldSpecs key) with
    | none => .error "The field to populate does not have a reference model specified in the schema."
    | some r =>
      match getModelS reg r with
      | .error e => .error e
      | .ok schemaRef =>
        let head : Pipeline :=
          [.lookupStage schemaRef.collection (fromPfx ++ key) "_id" (toPfx ++ key),
           .unwindStage ("$" ++ toPfx ++ key) true]
        match lookupStageEntry reg schemaRef val
            (toPfx ++ key ++ ".") (toPfx ++ key ++ ".") with
        | .error e => .error e
        | .ok sub =>
          match lookupStageFactory reg schema rest fromPfx toPfx with
          | .error e => .error e
          | .ok tail => .ok (head ++ sub ++ tail)
  termination_by l _ _ => sizeOf l
  decreasing_by all_goals (simp <;> omega)

end

/-- `GroupStageFactorySpecs`: a field name or an explicit group
descriptor. -/
inductive GroupSpecs where
  | gStr (s : String)
  | gObj (o : Obj)
deriving DecidableEq, Repr

/-- JavaScript truthiness of a group spec. -/
def groupTruthy : GroupSpecs → Bool
  | .gStr s => s != ""
  | .gObj _ => true

/-- `Aggregation.groupStageFactory`: a string spec groups by that field's
value; an object spec is passed through verbatim. -/
def groupStageFactory (_schema : Schema) (specs : GroupSpecs) : Pipeline :=
  match specs with
  | .gStr s => [.groupStage [("_id", .vStr ("$" ++ s))]]
  | .gObj o => [.groupStage o]

/-- `Aggregation.sortStageFactory`: passthrough of the sort descriptor. -/
def sortStageFactory (_schema : Schema) (specs : Obj) : Pipeline :=
  [.sortStage specs]

/-- `PipelineFactorySpecs`: the five optional sub-specs of the pipeline
factory. -/
structure PipelineFactorySpecs where
  lookupSpecs : Option (List (String × LookupSpecEntry)) := none
  matchSpecs : Option Query := none
  pruneSpecs : Option Query := none
  groupSpecs : Option GroupSpecs := none
  sortSpecs : Option Obj := none

/-- The `$lookup` step of the pipeline factory
(`if ($lookup) pipeline = lookupStageFactory(...).concat(pipeline)`). -/
def prependLookupStep (reg : Registry) (schema : Schema)
    (lk : Option (List (String × LookupSpecEntry))) (pfx : String)
    (pl : Pipeline) : Except String Pipeline :=
  match lk with
  | some l => (lookupStageFactory reg schema l pfx pfx).map (· ++ pl)
  | none => Except.ok pl

/-- The `$match` step of the pipeline factory
(`if ($match) pipeline = matchStageFactory(...).concat(pipeline)`). -/
def prependMatchStep (schema : Schema) (mt : Option Query) (pfx : String)
    (pl : Pipeline) : Except String Pipeline :=
  match mt with
  | some q =>
    if queryTruthy q then (matchStageFactory schema q pfx).map (· ++ pl)
    else Except.ok pl
  | none => Except.ok pl

/-- The `$prune` step of the pipeline factory
(`if ($prune) pipeline = pipeline.concat(matchStageFactory(schema, $prune))`). -/
def appendPruneStep (schema : Schema) (pr : Option Query) (pl : Pipeline) :
    Except String Pipeline :=
  match pr with
  | some q =>
    if queryTruthy q then (matchStageFactory schema q "").map (pl ++ ·)
    else Except.ok pl
  | none => Except.ok pl

/-- The `$group` step of the pipeline factory. -/
def appendGroupStep (schema : Schema) (gp : Option GroupSpecs) (pl : Pipeline) :
    Pipeline :=
  match gp with
  | some g => if groupTruthy g then pl ++ groupStageFactory schema g else pl
  | none => pl

/-- The `$sort` step of the pipeline factory. -/
def appendSortStep (schema : Schema) (st : Option Obj) (pl : Pipeline) :
    Pipeline :=
  match st with
  | some s => pl ++ sortStageFactory schema s
  | none => pl

/-- `Aggregation.pipelineFactory(schema, specs, { prefix, pipeline })`: the
five steps of the source, in source order — lookup stages prepended to the
caller-supplied pipeline, match stages then prepended before those, prune,
group and sort stages appended. -/
def pipelineFactory (reg : Registry) (schema : Schema)
    (specs : PipelineFactorySpecs) (pfx : String := "") (pl : Pipeline := []) :
    Except String Pipeline :=
  match prependLookupStep reg schema specs.lookupSpecs pfx pl with
  | .error e => .error e
  | .ok pl1 =>
    match prependMatchStep schema specs.matchSpecs pfx pl1 with
    | .error e => .error e
    | .ok pl2 =>
      match appendPruneStep schema specs.pruneSpecs pl2 with
      | .error e => .error e
      | .ok pl3 =>
        .ok (appendSortStep schema specs.sortSpecs
          (appendGroupStep schema specs.groupSpecs pl3))

/-- The filter stages a factory sub-spec contributes (empty when absent or
falsy). -/
def filterStagesOf (schema : Schema) (mt : Option Query) (pfx : String) :
    Except String Pipeline :=
  match mt with
  | some q => if queryTruthy q then matchStageFactory schema q pfx else .ok []
  | none => .ok []

/-- The join stages a factory sub-spec contributes. -/
def joinStagesOf (reg : Registry) (schema : Schema)
    (lk : Option (List (String × LookupSpecEntry))) (pfx : String) :
    Except String Pipeline :=
  match lk with
  | some l => lookupStageFactory reg schema l pfx pfx
  | none => .ok []

/-- The post-filter (prune) stages a factory sub-spec contributes. -/
def postFilterStagesOf (schema : Schema) (pr : Option Query) :
    Except String Pipeline :=
  match pr with
  | some q => if queryTruthy q then matchStageFactory schema q "" else .ok []
  | none => .ok []

/-- The group stages a factory sub-spec contributes. -/
def groupStagesOf (schema : Schema) (gp : Option GroupSpecs) : Pipeline :=
  match gp with
  | some g => if groupTruthy g then groupStageFactory schema g else []
  | none => []

/-- The sort stages a factory sub-spec contributes. -/
def sortStagesOf (schema : Schema) (st : Option Obj) : Pipeline :=
  match st with
  | some s => sortStageFactory schema s
  | none => []

/-! ### Document lifecycle engine (`core/Model`)

Operations thread an explicit `Store` (collection name → list of
documents) and return it next to the `Except` result, so a thrown error
still exposes the store mutations already performed.  The MongoDB
collection primitives (`insertOne`, `deleteOne`, `deleteMany`,
`findOneAndDelete`, `updateOne` and the single-`$match` aggregation that
`findMany` produces for a plain query) are modelled as simple operations
on those lists; array-valued update operators (`$push`, `$addToSet`) are
outside the scalar value model and only `$set` mutates a stored document. -/

/-- A stored document. -/
abbrev Doc := Obj

/-- The backing database: an association of collection names to their
documents. -/
abbrev Store := List (String × List Doc)

/-- The documents of a collection (a collection never touched is empty). -/
def getColl (st : Store) (c : String) : List Doc :=
  ((st.find? (fun kv => kv.1 == c)).map Prod.snd).getD []

/-- Replace the contents of a collection. -/
def setColl (st : Store) (c : String) (docs : List Doc) : Store :=
  if st.any (fun kv => kv.1 == c)
  then st.map (fun kv => if kv.1 == c then (c, docs) else kv)
  else st ++ [(c, docs)]

/-- A document matches an equality filter when every filter binding equals
the document's value at that key. -/
def matchesFilter (d : Doc) (q : Obj) : Bool :=
  q.all (fun kv => getKey d kv.1 == some kv.2)

/-- Store primitive: delete every document matching the filter, returning
the number removed. -/
def collDeleteMany (st : Store) (c : String) (q : Obj) : Store × Nat :=
  let docs := getColl st c
  let remaining := docs.filter (fun d => !(matchesFilter d q))
  (setColl st c remaining, docs.length - remaining.length)

/-- Store primitive: delete the first document matching the filter. -/
def collDeleteOne (st : Store) (c : String) (q : Obj) : Store × Nat :=
  let docs := getColl st c
  match docs.find? (fun d => matchesFilter d q) with
  | none => (st, 0)
  | some _ => (setColl st c (docs.eraseP (fun d => matchesFilter d q)), 1)

/-- Store primitive: atomically read and delete the first document matching
the filter. -/
def collFindOneAndDelete (st : Store) (c : String) (q : Obj) :
    Store × Option Doc :=
  let docs := getColl st c
  match docs.find? (fun d => matchesFilter d q) with
  | none => (st, none)
  | some d => (setColl st c (docs.eraseP (fun d2 => matchesFilter d2 q)), some d)

/-- Store primitive: the documents matching the filter (the aggregation a
plain query compiles to is a single `$match` stage). -/
def collFindMany (st : Store) (c : String) (q : Obj) : List Doc :=
  (getColl st c).filter (fun d => matchesFilter d q)

/-- Store primitive: append a document, assigning a fresh identifier when
the document carries none. -/
def collInsertOne (st : Store) (c : String) (d : Doc) (fresh : ObjectID) :
    Store × Doc :=
  let newDoc := if hasKey d "_id" then d else setKey d "_id" (.vOid fresh)
  (setColl st c (getColl st c ++ [newDoc]), newDoc)

/-- `Model.findOne` on an equality filter: the first matching document. -/
def modelFindOne (schema : Schema) (st : Store) (q : Obj) : Option Doc :=
  (collFindMany st schema.collection q).head?

/-- The update-operator object of an update
(`$set` / `$setOnInsert` / `$addToSet` / `$push`). -/
structure UpdateOps where
  set : Option Obj := none
  setOnInsert : Option Obj := none
  addToSet : Option Obj := none
  push : Option Obj := none

/-- An update argument: either a plain document fragment or an
update-operator object (`typeIsUpdate` distinguishes them by `$`-keys). -/
inductive UpdateInput where
  | docInput (d : Obj)
  | updateInput (u : UpdateOps)

/-- Apply the `$set` clause of an update to a document. -/
def applyUpdateOps (d : Doc) (u : UpdateOps) : Doc :=
  (u.set.getD []).foldl (fun acc kv => setKey acc kv.1 kv.2) d

/-- Object spread `{...a, ...b}`: later bindings override earlier ones. -/
def mergeObj (a b : Obj) : Obj :=
  b.foldl (fun acc kv => setKey acc kv.1 kv.2) a

/-- The document MongoDB materialises for an upsert with no match: the
filter's equality fields, overridden by `$setOnInsert`, overridden by
`$set`, with a fresh identifier when none is present. -/
def buildUpsertDoc (q : Obj) (u : UpdateOps) (fresh : ObjectID) : Doc :=
  let d := mergeObj (mergeObj q (u.setOnInsert.getD [])) (u.set.getD [])
  if hasKey d "_id" then d else setKey d "_id" (.vOid fresh)

/-- Replace the first document matching the filter by its updated form. -/
def updateFirstMatching (docs : List Doc) (q : Obj) (u : UpdateOps) :
    List Doc :=
  match docs with
  | [] => []
  | d :: rest =>
    if matchesFilter d q then applyUpdateOps d u :: rest
    else d :: updateFirstMatching rest q u

/-- Store primitive: update the first document matching the filter,
inserting the upsert document when nothing matches and `upsert` is set;
returns the affected count. -/
def collUpdateOne (st : Store) (c : String) (q : Obj) (u : UpdateOps)
    (upsert : Bool) (fresh : ObjectID) : Store × Nat :=
  let docs := getColl st c
  match docs.find? (fun d => matchesFilter d q) with
  | some _ => (setColl st c (updateFirstMatching docs q u), 1)
  | none =>
    if upsert then (setColl st c (docs ++ [buildUpsertDoc q u fresh]), 1)
    else (st, 0)

/-- `ModelValidateDocumentOptions`: absent flags are `none` because the
source tests them with `=== true`. -/
structure ModelValidateDocumentOptions where
  strict : Option Bool := none
  ignoreUniqueIndex : Option Bool := none

/-- `ModelInsertOneOptions` (extends the validation options). -/
structure ModelInsertOneOptions where
  strict : Option Bool := none
  ignoreUniqueIndex : Option Bool := none
  ignoreTimestamps : Option Bool := none

/-- `ModelUpdateOneOptions` (extends the insert options; `upsert` comes
from the driver options, `returnDoc` and `skipHooks` from the model
layer). -/
structure ModelUpdateOneOptions where
  strict : Option Bool := none
  ignoreUniqueIndex : Option Bool := none
  ignoreTimestamps : Option Bool := none
  returnDoc : Option Bool := none
  skipHooks : Option Bool := none
  upsert : Option Bool := none

/-- `ModelDeleteOneOptions`. -/
structure ModelDeleteOneOptions where
  returnDoc : Option Bool := none

/-- `ModelDeleteManyOptions`. -/
structure ModelDeleteManyOptions where
  returnDocs : Option Bool := none

/-- Whether a runtime value conforms to a declared field type (array and
nested-object types lie outside the scalar value model). -/
def typeConforms (v : Value) (t : FieldType) : Bool :=
  match t, v with
  | .tString, .vStr _ => true
  | .tNumber, .vNum _ => true
  | .tBoolean, .vBool _ => true
  | .tDate, .vDate _ => true
  | .tObjectID, .vOid _ => true
  | _, _ => false

/-- Modelled from the spec: the implementation of `validateFieldValue`
(`src/utils/validateFieldValue.ts`) is not among the sources available
here, only its callers are.  Spec §4.3: dispatch on the validation
strategy — pattern → string match; single numeric bound → inclusive upper
bound; allowed-value set → membership; predicate function → delegate; no
strategy → type-conformance check of the value against the declared field
type.  Returns a boolean and never throws. -/
def validateFieldValue (v : Value) (fs : FieldSpecs) : Bool :=
  match fs.validate with
  | some (.pattern p) => (match v with | .vStr s => p s | _ => false)
  | some (.bound n) => (match v with | .vNum m => decide (m ≤ n) | _ => false)
  | some (.allowed vals) => vals.contains v
  | some (.pred f) => f v
  | none => typeConforms v fs.type

/-- Modelled from the spec: the implementation of `sanitizeDocument`
(`src/utils/sanitizeDocument.ts`) is not among the sources available here,
only its callers are.  Spec §4.2: strict-mode document sanitization drops,
silently, every key not present in the schema's field mapping and not one
of the identifier/timestamp keys, keeping the remaining bindings
unchanged. -/
def sanitizeDocument (schema : Schema) (d : Obj) : Obj :=
  d.filter (fun kv => keepKey schema kv.1)

/-- Model of the external `bcrypt.hash(value, 10)`: an irreversible tagging
of the stringified value. -/
def bcryptHash (v : Value) : Value :=
  .vStr ("$2b$10$" ++ valueToString v)

/-- One declared field's step of `formatDocument`: skip absent fields,
apply the format function when defined, then hash when `encrypted`. -/
def formatFieldStep (acc : Obj) (kv : String × FieldSpecs) : Obj :=
  if hasKey acc kv.1 then
    let acc2 := match kv.2.format, getKey acc kv.1 with
      | some f, some v => setKey acc kv.1 (f v)
      | _, _ => acc
    if kv.2.encrypted then
      match getKey acc2 kv.1 with
      | some v => setKey acc2 kv.1 (bcryptHash v)
      | none => acc2
    else acc2
  else acc

/-- `Model.formatDocument`: apply each declared field's format function to
its present value, then hash the fields marked `encrypted`. -/
def formatDocument (schema : Schema) (d : Doc) : Doc :=
  schema.fields.foldl formatFieldStep d

/-- `Model.randomFields` with no fixed fields: generate the fields that are
required (or all, with `includeOptionals`) and carry a random-value
function. -/
def randomFields (schema : Schema) (includeOptionals : Bool := false) : Obj :=
  schema.fields.foldl (fun o kv =>
    if !includeOptionals && !kv.2.required then o
    else match kv.2.random with
      | some v => setKey o kv.1 v
      | none => o) []

/-- A JavaScript runtime value handed to `validateDocument` as the
document: a plain object or some other (non-plain-object) value. -/
inductive JSInput where
  | obj (o : Obj)
  | prim (v : Value)

/-- Step 1 and 2 of `validateDocument`: every key of the document outside
the identifier/timestamp keys must be declared in the schema and its value
must pass the field validation. -/
def docFieldsLoop (schema : Schema) : List (String × Value) → Except String Unit
  | [] => .ok ()
  | (k, v) :: rest =>
    if k == "_id" then docFieldsLoop schema rest
    else if schema.timestamps && k == "updatedAt" then docFieldsLoop schema rest
    else if schema.timestamps && k == "createdAt" then docFieldsLoop schema rest
    else
      match schema.fieldSpecs k with
      | none => .error ("The field " ++ k ++ " is not defined in the schema")
      | some fs =>
        if validateFieldValue v fs then docFieldsLoop schema rest
        else .error ("Error validating field " ++ k)

/-- Step 3 of `validateDocument`: for every unique index whose keys are all
present in the document, no other document may already match those
values. -/
def uniqueIndexLoop (schema : Schema) (st : Store) (doc : Obj) :
    List SchemaIndex → Except String Unit
  | [] => .ok ()
  | idx :: rest =>
    if !idx.unique then uniqueIndexLoop schema st doc rest
    else if !(idx.spec.all (fun k => hasKey doc k)) then
      uniqueIndexLoop schema st doc rest
    else
      match modelFindOne schema st
          (doc.filter (fun kv => idx.spec.contains kv.1)) with
      | some _ => .error "Another document already exists"
      | none => uniqueIndexLoop schema st doc rest

/-- Step 4 of `validateDocument` (strict mode): a required field with no
truthy default must be present
(`if (!field.required || field.default) continue`). -/
def requiredFieldsLoop (doc : Obj) : List (String × FieldSpecs) → Except String Unit
  | [] => .ok ()
  | (k, fs) :: rest =>
    if !fs.required ||
        (match fs.default with | some dv => valueTruthy dv | none => false) then
      requiredFieldsLoop doc rest
    else if hasKey doc k then requiredFieldsLoop doc rest
    else .error ("Missing required field " ++ k)

/-- `Model.validateDocument(doc, options)`: reject non-plain-objects and
empty objects, then check declaredness and per-field validity of every
present field, then unique indexes (unless ignored), then required fields
(strict mode only). -/
def validateDocument (schema : Schema) (st : Store) (doc : JSInput)
    (opts : ModelValidateDocumentOptions) : Except String Bool :=
  match doc with
  | .prim _ => .error "Invalid document provided"
  | .obj o =>
    if o.isEmpty then .error "Empty objects are not permitted"
    else
      match docFieldsLoop schema o with
      | .error e => .error e
      | .ok _ =>
        match (if !(opts.ignoreUniqueIndex == some true) then
                 uniqueIndexLoop schema st o schema.indexes
               else .ok ()) with
        | .error e => .error e
        | .ok _ =>
          match (if opts.strict == some true then
                   requiredFieldsLoop o schema.fields
                 else .ok ()) with
          | .error e => .error e
          | .ok _ => .ok true

/-- The validation options `beforeInsert` builds:
`{ ignoreUniqueIndex: true, strict: true, ...options }`. -/
def insertValidateOpts (opts : ModelInsertOneOptions) :
    ModelValidateDocumentOptions :=
  { strict := some (opts.strict.getD true),
    ignoreUniqueIndex := some (opts.ignoreUniqueIndex.getD true) }

/-- `if (!is.date(o[key])) o[key] = new Date()`. -/
def renewDateField (o : Obj) (key : String) (now : Nat) : Obj :=
  match getKey o key with
  | some (.vDate _) => o
  | _ => setKey o key (.vDate now)

/-- The timestamp-renewal step of `beforeInsert`: unless opted out, set
`createdAt` / `updatedAt` when they are not already dates. -/
def fillTimestamps (schema : Schema) (ignoreTimestamps : Option Bool)
    (o : Obj) (now : Nat) : Obj :=
  if schema.timestamps && !(ignoreTimestamps == some true) then
    renewDateField (renewDateField o "createdAt" now) "updatedAt" now
  else o

/-- One declared field's step of the default-filling pass of
`beforeInsert`. -/
def defaultFieldStep (acc : Obj) (kv : String × FieldSpecs) : Obj :=
  if hasKey acc kv.1 then acc
  else match kv.2.default with
    | some dv => setKey acc kv.1 dv
    | none => acc

/-- The default-filling step of `beforeInsert`: give every absent declared
field its schema default, when one is defined. -/
def applyDefaults (schema : Schema) (o : Obj) : Obj :=
  schema.fields.foldl defaultFieldStep o

/-- `Model.beforeInsert`: hook (identity by default) → sanitize →
timestamps → defaults → format → validate (strict, uniqueness ignored,
both overridable through the options). -/
def beforeInsert (schema : Schema) (st : Store) (doc : Obj)
    (opts : ModelInsertOneOptions) (now : Nat) : Except String Obj :=
  let o1 := sanitizeDocument schema doc
  let o2 := fillTimestamps schema opts.ignoreTimestamps o1 now
  let o3 := applyDefaults schema o2
  let o4 := formatDocument schema o3
  match validateDocument schema st (.obj o4) (insertValidateOpts opts) with
  | .error e => .error e
  | .ok _ => .ok o4

/-- `Model.insertOne`: permission check, `beforeInsert`, store insert,
`afterInsert` (a no-op hook by default); returns the inserted document. -/
def modelInsertOne (schema : Schema) (st : Store) (doc : Option Obj)
    (opts : ModelInsertOneOptions) (now : Nat) (fresh : ObjectID) :
    Except String Doc × Store :=
  if schema.noInserts == some true then
    (.error "Insertions are disallowed for this model", st)
  else
    match beforeInsert schema st
        (match doc with | some d => d | none => randomFields schema)
        opts now with
    | .error e => (.error e, st)
    | .ok t =>
      let (st2, newDoc) := collInsertOne st schema.collection t fresh
      (.ok newDoc, st2)

/-- The insert options `beforeUpdate` hands to `beforeInsert` for an
upsert: `{ ...options, strict: false }`. -/
def upsertInsertOpts (opts : ModelUpdateOneOptions) : ModelInsertOneOptions :=
  { strict := some false,
    ignoreUniqueIndex := opts.ignoreUniqueIndex,
    ignoreTimestamps := opts.ignoreTimestamps }

/-- The validation options `beforeUpdate` builds:
`{ ignoreUniqueIndex: true, ...options }`. -/
def updateValidateOpts (opts : ModelUpdateOneOptions) :
    ModelValidateDocumentOptions :=
  { strict := opts.strict,
    ignoreUniqueIndex := some (opts.ignoreUniqueIndex.getD true) }

/-- `Model.beforeUpdate`: upsert permission check, hook (identity by
default), sanitize the query and every recognized update-operator
sub-object, stamp the update timestamp, format the `$set` fields, fold the
insert-side pipeline of the query into `$setOnInsert` for an upsert, and
validate the `$set` fields. -/
def beforeUpdate (schema : Schema) (st : Store) (query : Query)
    (update : UpdateInput) (opts : ModelUpdateOneOptions) (now : Nat) :
    Except String (Obj × UpdateOps) :=
  if opts.upsert == some true && !(schema.allowUpsert == some true) then
    .error "Attempting to upsert a document while upserting is disallowed in the schema"
  else
    match sanitizeQuery schema query with
    | .error e => .error e
    | .ok qq =>
      let u1 : UpdateOps := match update with
        | .updateInput u =>
          { set := u.set.map (sanitizeDocument schema),
            setOnInsert := u.setOnInsert.map (sanitizeDocument schema),
            addToSet := u.addToSet.map (sanitizeDocument schema),
            push := u.push.map (sanitizeDocument schema) }
        | .docInput d => { set := some (sanitizeDocument schema d) }
      let u2 := if schema.timestamps && !(opts.ignoreTimestamps == some true) then
          let s := u1.set.getD []
          let s2 := match getKey s "updatedAt" with
            | some (.vDate _) => s
            | _ => setKey s "updatedAt" (.vDate now)
          { u1 with set := some s2 }
        else u1
      let u3 := match u2.set with
        | some s => { u2 with set := some (formatDocument schema s) }
        | none => u2
      match (if opts.upsert == some true then
               match beforeInsert schema st qq (upsertInsertOpts opts) now with
               | .error e => .error e
               | .ok bi =>
                 let merged := mergeObj (u3.setOnInsert.getD []) bi
                 let sKeys := (u3.set.getD []).map Prod.fst
                 let soi := merged.filter (fun kv => !(sKeys.contains kv.1))
                 .ok (if soi.isEmpty then u3
                      else { u3 with setOnInsert := some soi })
             else .ok u3 : Except String UpdateOps) with
      | .error e => .error e
      | .ok u4 =>
        match validateDocument schema st
            (match u4.set with
             | some s => JSInput.obj s
             | none => JSInput.prim .vNull)
            (updateValidateOpts opts) with
        | .error e => .error e
        | .ok _ => .ok (qq, u4)

/-- The outcome of a single-document write operation: the document (when a
returned document was requested), its absence, or a boolean success
flag. -/
inductive WriteOneResult where
  | doc (d : Doc)
  | noDoc
  | success (b : Bool)
deriving DecidableEq, Repr

/-- Find a document by the (optional) identifier value. -/
def findById (st : Store) (c : String) (idv : Option Value) : Option Doc :=
  (getColl st c).find? (fun d => getKey d "_id" == idv)

/-- Store primitive: `findOneAndUpdate` with `returnOriginal: true`.
Returns the pre-update document and, for an upsert with no match, the
upserted document's identifier value (`lastErrorObject.upserted`). -/
def collFindOneAndUpdate (st : Store) (c : String) (q : Obj) (u : UpdateOps)
    (upsert : Bool) (fresh : ObjectID) :
    Store × Option Doc × Option Value :=
  let docs := getColl st c
  match docs.find? (fun d => matchesFilter d q) with
  | some d => (setColl st c (updateFirstMatching docs q u), some d, none)
  | none =>
    if upsert then
      let newDoc := buildUpsertDoc q u fresh
      (setColl st c (docs ++ [newDoc]), none, getKey newDoc "_id")
    else (st, none, none)

/-- `Model.updateOne`: permission check, `beforeUpdate` (skipped with
`skipHooks`), object-query check, then either the `findOneAndUpdate` path
(returning the updated document) or the plain `updateOne` path (returning
a success flag); `afterUpdate` is a no-op hook by default. -/
def modelUpdateOne (schema : Schema) (st : Store) (query : Query)
    (update : UpdateInput) (opts : ModelUpdateOneOptions) (now : Nat)
    (fresh : ObjectID) : Except String WriteOneResult × Store :=
  if schema.noUpdates == some true then
    (.error "Updates are disallowed for this model", st)
  else
    match (if opts.skipHooks == some true then
             (.ok (query, update) : Except String (Query × UpdateInput))
           else
             match beforeUpdate schema st query update opts now with
             | .error e => .error e
             | .ok (q, u) => .ok (.qObj q, .updateInput u)) with
    | .error e => (.error e, st)
    | .ok (q, u) =>
      match q with
      | .qObj qq =>
        match u with
        | .docInput _ =>
          (.error "the update operation document must contain atomic operators", st)
        | .updateInput uu =>
          if opts.returnDoc == some true then
            match collFindOneAndUpdate st schema.collection qq uu
                (opts.upsert == some true) fresh with
            | (st2, oldDoc, upserted) =>
              match upserted with
              | none =>
                match oldDoc with
                | none => (.ok .noDoc, st2)
                | some od =>
                  match findById st2 schema.collection (getKey od "_id") with
                  | none => (.error "Unable to find the updated doc", st2)
                  | some nd => (.ok (.doc nd), st2)
              | some upId =>
                match findById st2 schema.collection upId with
                | none => (.error "Unable to find the updated doc", st2)
                | some nd => (.ok (.doc nd), st2)
          else
            match collUpdateOne st schema.collection qq uu
                (opts.upsert == some true) fresh with
            | (st2, n) =>
              if n == 0 then (.ok (.success false), st2)
              else (.ok (.success true), st2)
      | _ =>
        (.error "Invalid query, maybe it is not sanitized? This could happen if you enabled skipHooks in the options, in which case you will need to sanitize the query yourself", st)

/-- Whether the schema forbids `deleteMany`. -/
def deleteManyDisallowed (schema : Schema) : Bool :=
  schema.noDeletes == some true || schema.noDeleteMany == some true

/-- `Model.deleteMany` in its default (no `returnDocs`) mode — the mode
cascading deletion invokes: permission check, `beforeDelete` (hook plus
strict query sanitization), the `deleteMany` store primitive, and
`afterDelete` with no documents (so no further cascade). -/
def modelDeleteManyDefault (schema : Schema) (st : Store) (query : Query) :
    Except String Bool × Store :=
  if deleteManyDisallowed schema then
    (.error "Multiple deletions are disallowed for this model", st)
  else
    match sanitizeQuery schema query with
    | .error e => (.error e, st)
    | .ok q =>
      let (st2, n) := collDeleteMany st schema.collection q
      if n == 0 then (.ok false, st2) else (.ok true, st2)

/-- The inner loop of `cascadeDelete` over the fields of one dependent
model: for every field whose reference points back to this model, delete
all dependent documents holding the deleted identifier there. -/
def cascadeFieldsLoop (thisModel : String) (target : Schema) (docId : ObjectID) :
    List (String × FieldSpecs) → Store → Except String Unit × Store
  | [], st => (.ok (), st)
  | (k, fs) :: rest, st =>
    if fs.ref == some thisModel then
      match modelDeleteManyDefault target st (.qObj [(k, .vOid docId)]) with
      | (.error e, st2) => (.error e, st2)
      | (.ok _, st2) => cascadeFieldsLoop thisModel target docId rest st2
    else cascadeFieldsLoop thisModel target docId rest st

/-- The outer loop of `cascadeDelete` over the cascade model names. -/
def cascadeNamesLoop (reg : Registry) (thisModel : String) (docId : ObjectID) :
    List String → Store → Except String Unit × Store
  | [], st => (.ok (), st)
  | name :: rest, st =>
    match getModelS reg name with
    | .error e => (.error e, st)
    | .ok target =>
      match cascadeFieldsLoop thisModel target docId target.fields st with
      | (.error e, st2) => (.error e, st2)
      | (.ok _, st2) => cascadeNamesLoop reg thisModel docId rest st2

/-- `Model.cascadeDelete(docId)`: nothing to do without a cascade list,
otherwise delete the dependents of every listed model. -/
def cascadeDelete (reg : Registry) (schema : Schema) (docId : ObjectID)
    (st : Store) : Except String Unit × Store :=
  match schema.cascade with
  | none => (.ok (), st)
  | some names => cascadeNamesLoop reg schema.model docId names st

/-- The argument `afterDelete` receives: the deleted document(s) when the
operation ran in return-documents mode, nothing otherwise. -/
inductive DeleteArg where
  | noDocs
  | one (d : Doc)
  | many (ds : List Doc)

/-- The array branch of `afterDelete`: cascade for every deleted document
whose identifier is a direct `ObjectID`. -/
def afterDeleteMany (reg : Registry) (schema : Schema) :
    List Doc → Store → Except String Unit × Store
  | [], st => (.ok (), st)
  | d :: rest, st =>
    match getKey d "_id" with
    | some (.vOid x) =>
      match cascadeDelete reg schema x st with
      | (.error e, st2) => (.error e, st2)
      | (.ok _, st2) => afterDeleteMany reg schema rest st2
    | _ => afterDeleteMany reg schema rest st

/-- `Model.afterDelete(docs?)`: cascade for each deleted document carrying
a valid identifier — only documents actually handed to the hook are
considered; `didDeleteDocument` is a no-op by default. -/
def afterDelete (reg : Registry) (schema : Schema) (arg : DeleteArg)
    (st : Store) : Except String Unit × Store :=
  match arg with
  | .noDocs => (.ok (), st)
  | .one d =>
    match getKey d "_id" with
    | some (.vOid x) => cascadeDelete reg schema x st
    | _ => (.ok (), st)
  | .many ds => afterDeleteMany reg schema ds st

/-- `Model.deleteOne`: permission check, `beforeDelete` (hook plus strict
query sanitization), then either the atomic `findOneAndDelete` path
(returning the deleted document and running `afterDelete` on it) or the
plain `deleteOne` path (returning a success flag, `afterDelete` receiving
no document). -/
def modelDeleteOne (reg : Registry) (schema : Schema) (query : Query)
    (opts : ModelDeleteOneOptions) (st : Store) :
    Except String WriteOneResult × Store :=
  if schema.noDeletes == some true then
    (.error "Deletions are disallowed for this model", st)
  else
    match sanitizeQuery schema query with
    | .error e => (.error e, st)
    | .ok q =>
      if opts.returnDoc == some true then
        match collFindOneAndDelete st schema.collection q with
        | (_, none) => (.ok .noDoc, st)
        | (st2, some d) =>
          match afterDelete reg schema (.one d) st2 with
          | (.error e, st3) => (.error e, st3)
          | (.ok _, st3) => (.ok (.doc d), st3)
      else
        match collDeleteOne st schema.collection q with
        | (st2, n) =>
          if n == 0 then (.ok (.success false), st2)
          else
            match afterDelete reg schema .noDocs st2 with
            | (.error e, st3) => (.error e, st3)
            | (.ok _, st3) => (.ok (.success true), st3)

/-- The per-document deletion loop of `deleteMany` in `returnDocs` mode:
atomically delete each found document by identifier, collecting the
deleted documents. -/
def deleteDocsLoop (c : String) :
    List Doc → Store → Store × List Doc
  | [], st => (st, [])
  | d :: rest, st =>
    match collFindOneAndDelete st c [("_id", (getKey d "_id").getD .vNull)] with
    | (st2, some v) =>
      let (st3, vs) := deleteDocsLoop c rest st2
      (st3, v :: vs)
    | (st2, none) =>
      let (st3, vs) := deleteDocsLoop c rest st2
      (st3, vs)

/-- The outcome of a multi-document write operation. -/
inductive WriteManyResult where
  | docs (ds : List Doc)
  | success (b : Bool)
deriving DecidableEq, Repr

/-- `Model.deleteMany`: permission check, `beforeDelete`, then either the
per-document `findOneAndDelete` loop (returning the deleted documents and
cascading for each) or the bulk `deleteMany` primitive (no documents, so
no cascade). -/
def modelDeleteMany (reg : Registry) (schema : Schema) (query : Query)
    (opts : ModelDeleteManyOptions) (st : Store) :
    Except String WriteManyResult × Store :=
  if deleteManyDisallowed schema then
    (.error "Multiple deletions are disallowed for this model", st)
  else
    match sanitizeQuery schema query with
    | .error e => (.error e, st)
    | .ok q =>
      if opts.returnDocs == some true then
        let found := collFindMany st schema.collection q
        let (st2, results) := deleteDocsLoop schema.collection found st
        match afterDelete reg schema (.many results) st2 with
        | (.error e, st3) => (.error e, st3)
        | (.ok _, st3) => (.ok (.docs results), st3)
      else
        let (st2, n) := collDeleteMany st schema.collection q
        if n == 0 then (.ok (.success false), st2)
        else
          match afterDelete reg schema .noDocs st2 with
          | (.error e, st3) => (.error e, st3)
          | (.ok _, st3) => (.ok (.success true), st3)
def exampleSchema : Schema :=
  { model := "Example", collection := "examples",
    fields := [("foo", { type := .tString })] }

/-- Example schema of a model `Baz` with no reference fields. -/
def bazSchema : Schema :=
  { model := "Baz", collection := "bazs",
    fields := [("aString", { type := .tString })] }

/-- Example schema of a model `Bar` referencing `Baz` through `aBaz`. -/
def barSchema : Schema :=
  { model := "Bar", collection := "bars",
    fields := [("aBaz", { type := .tObjectID, ref := some "Baz" })] }

/-- Example schema of a model `Foo` referencing `Bar` through `aBar`. -/
def fooRefSchema : Schema :=
  { model := "Foo", collection := "foos",
    fields := [("aBar", { type := .tObjectID, ref := some "Bar" })] }

/-- Example registry holding the three example models. -/
def exampleRegistry : Registry :=
  [("Foo", fooRefSchema), ("Bar", barSchema), ("Baz", bazSchema)]

/-- Whether a runtime value is a nonempty plain object — the shape
`validateDocument` demands of its document argument. -/
def isNonemptyPlainObject : JSInput → Bool
  | .obj o => !o.isEmpty
  | .prim _ => false

/-- A schema whose flags disallow insertion, update and deletion, and do
not allow upserts. -/
def lockedSchema : Schema :=
  { model := "Locked", collection := "lockeds",
    noInserts := some true, noUpdates := some true, noDeletes := some true,
    fields := [("a", { type := .tNumber })] }

/-- A schema that does not explicitly allow upserts (all other flags
clear). -/
def upsertLockedSchema : Schema :=
  { model := "Up", collection := "ups",
    fields := [("a", { type := .tNumber })] }

/-- A schema with a required field and no default. -/
def reqSchema : Schema :=
  { model := "Req", collection := "reqs",
    fields := [("name", { type := .tString, required := true })] }

/-- A timestamps-enabled schema declaring `createdAt` itself as a required
field without a default — the auto-managed timestamp fill satisfies the
required-field check before validation sees the document. -/
def tsRequiredSchema : Schema :=
  { model := "Ts", collection := "tss", timestamps := true,
    fields := [("createdAt", { type := .tDate, required := true })] }

/-- A concrete identifier used by witnesses and counterexamples. -/
def oidX : ObjectID := ⟨"aaaaaaaaaaaaaaaaaaaaaaaa"⟩

/-- A second concrete identifier. -/
def oidY : ObjectID := ⟨"bbbbbbbbbbbbbbbbbbbbbbbb"⟩

/-- Cascade example: schema `A` cascading into model `B`. -/
def cascadeASchema : Schema :=
  { model := "A", collection := "acoll", cascade := some ["B"],
    fields := [("x", { type := .tNumber })] }

/-- Cascade example: schema `B` referencing `A` through `aRef`. -/
def cascadeBSchema : Schema :=
  { model := "B", collection := "bcoll",
    fields := [("aRef", { type := .tObjectID, ref := some "A" })] }

/-- Registry for the cascade example. -/
def cascadeRegistry : Registry :=
  [("A", cascadeASchema), ("B", cascadeBSchema)]

/-- A store holding one `A`-document with identifier `oidX` and one
`B`-document referencing it. -/
def cascadeStore : Store :=
  [("acoll", [[("_id", .vOid oidX)]]),
   ("bcoll", [[("_id", .vOid oidY), ("aRef", .vOid oidX)]])]

/-- Every document of every collection of `st'` is already in `st`. -/
def storeSubset (st' st : Store) : Prop :=
  ∀ (c : String) (d : Doc), d ∈ getColl st' c → d ∈ getColl st c

/-! ## Theorems -/

theorem stripKeys_eq_filter (schema : Schema) :
    ∀ (keys : List String) (o : Obj),
      stripKeys schema o keys =
        o.filter (fun kv => keepKey schema kv.1 || !(keys.contains kv.1)) := by
  intro keys
  induction keys with
  | nil => intro o; simp [stripKeys]
  | cons k rest ih =>
    intro o
    by_cases hk : keepKey schema k
    · rw [stripKeys, if_pos hk, ih]
      apply List.filter_congr
      intro kv _
      by_cases hkv : kv.1 = k
      · simp [hkv, hk]
      · simp [hkv]
    · rw [stripKeys, if_neg hk, ih, deleteKey, List.filter_filter]
      apply List.filter_congr
      intro kv _
      by_cases hkv : kv.1 = k
      · simp [hkv, hk]
      · simp [hkv]

theorem stripKeys_self_eq_filter (schema : Schema) (o : Obj) :
    stripKeys schema o (o.map Prod.fst) =
      o.filter (fun kv => keepKey schema kv.1) := by
  rw [stripKeys_eq_filter]
  apply List.filter_congr
  intro kv hkv
  have hmem : kv.1 ∈ o.map Prod.fst := List.mem_map_of_mem Prod.fst hkv
  simp [hmem]

/-- **C5.** For every schema `S` and object input `Q`, strict-mode
`sanitizeQuery S Q` succeeds and keeps exactly those bindings of `Q` whose
key is declared in `S`'s field mapping, is the identifier key `_id`, or is
one of `createdAt` / `updatedAt` when `S` enables timestamps; every other
binding is removed silently, and the kept bindings keep their values. -/
theorem sanitizeQuery_strict_filters_schema_keys (schema : Schema) (o : Obj) :
    sanitizeQuery schema (.qObj o) true =
      .ok (o.filter (fun kv => keepKey schema kv.1)) := by
  simp [sanitizeQuery, stripKeys_self_eq_filter]

theorem hexCharToLower_canonical {c : Char} (hc : isCanonicalHexChar c = true) :
    hexCharToLower c = c := by
  have hmem : c ∈ canonicalHexChars := by
    simpa [isCanonicalHexChar] using hc
  fin_cases hmem <;> rfl

theorem hexToLower_canonical {s : String} (hs : isCanonicalObjectIDHex s = true) :
    hexToLower s = s := by
  simp only [isCanonicalObjectIDHex, Bool.and_eq_true, List.all_eq_true] at hs
  have hdata : s.data.map hexCharToLower = s.data := by
    have := List.map_congr_left (l := s.data)
      (f := hexCharToLower) (g := id)
      (fun c hc => hexCharToLower_canonical (hs.2 c hc))
    simpa using this
  show String.mk (s.data.map hexCharToLower) = s
  rw [hdata]

theorem canonical_isValidObjectIDString {s : String}
    (hs : isCanonicalObjectIDHex s = true) : isValidObjectIDString s = true := by
  simp only [isCanonicalObjectIDHex, Bool.and_eq_true, List.all_eq_true] at hs
  simp only [isValidObjectIDString, Bool.and_eq_true, List.all_eq_true]
  exact ⟨hs.1, fun c hc => by
    have := hs.2 c hc
    simp [isHexCharCI, isCanonicalHexChar] at this ⊢
    exact Or.inl this⟩

theorem parseObjectID_str (o : ObjectID)
    (h : isCanonicalObjectIDHex o.hex = true) :
    parseObjectID o.str = some o := by
  rw [parseObjectID, ObjectID.str, if_pos (canonical_isValidObjectIDString h),
    hexToLower_canonical h]

/-- **C6.** For every schema and identifier `o` (in canonical hex form, the
form `toString` always produces), `sanitizeQuery` wraps both the raw
identifier and its string form into the single-key filter
`[("_id", o)]`, and the two calls yield equal filters. -/
theorem sanitizeQuery_identifier_normalization (schema : Schema) (o : ObjectID)
    (strict : Bool) (h : isCanonicalObjectIDHex o.hex = true) :
    sanitizeQuery schema (.qId o) strict = .ok [("_id", .vOid o)] ∧
    sanitizeQuery schema (.qStr o.str) strict = .ok [("_id", .vOid o)] := by
  refine ⟨rfl, ?_⟩
  rw [sanitizeQuery]
  rw [parseObjectID_str o h]

theorem sanitizeQuery_identifier_normalization_witness :
    isCanonicalObjectIDHex (ObjectID.mk "5927f337c5178b9665b56b1e").hex = true ∧
    sanitizeQuery exampleSchema (.qId (ObjectID.mk "5927f337c5178b9665b56b1e")) true =
      .ok [("_id", .vOid (ObjectID.mk "5927f337c5178b9665b56b1e"))] ∧
    sanitizeQuery exampleSchema
        (.qStr (ObjectID.str (ObjectID.mk "5927f337c5178b9665b56b1e"))) true =
      .ok [("_id", .vOid (ObjectID.mk "5927f337c5178b9665b56b1e"))] := by
  refine ⟨by decide, ?_⟩
  exact sanitizeQuery_identifier_normalization exampleSchema
    (ObjectID.mk "5927f337c5178b9665b56b1e") true (by decide)

theorem heapStripKeys_eq (schema : Schema) (r : Nat) :
    ∀ (keys : List String) (h : Heap),
      heapStripKeys schema h r keys = heapSet h r (stripKeys schema (h r) keys) := by
  intro keys
  induction keys with
  | nil =>
    intro h
    rw [heapStripKeys, stripKeys, heapSet, Function.update_eq_self]
  | cons k rest ih =>
    intro h
    by_cases hk : keepKey schema k
    · rw [heapStripKeys, if_pos hk, stripKeys, if_pos hk, ih]
    · rw [heapStripKeys, if_neg hk, stripKeys, if_neg hk, ih, heapSet, heapSet,
        heapSet, Function.update_same, Function.update_idem]

/-- **C9.** Strict-mode `sanitizeQuery` on an object input returns the very
reference it was given, the object behind that reference now holds exactly
the bindings whose keys the schema keeps (the dropped keys were deleted
from the caller's object in place), and no other object of the heap is
touched. -/
theorem sanitizeQuery_strict_in_place_mutation (schema : Schema) (h : Heap)
    (r : Nat) :
    (sanitizeQueryObjRef schema true h r).2 = r ∧
    (sanitizeQueryObjRef schema true h r).1 r =
      (h r).filter (fun kv => keepKey schema kv.1) ∧
    ∀ q : Nat, q ≠ r → (sanitizeQueryObjRef schema true h r).1 q = h q := by
  refine ⟨rfl, ?_, ?_⟩
  · show (heapStripKeys schema h r ((h r).map Prod.fst)) r = _
    rw [heapStripKeys_eq, heapSet, Function.update_same, stripKeys_self_eq_filter]
  · intro q hq
    show (heapStripKeys schema h r ((h r).map Prod.fst)) q = h q
    rw [heapStripKeys_eq, heapSet, Function.update_noteq hq]

theorem sanitizeQuery_strict_in_place_mutation_witness :
    (sanitizeQueryObjRef exampleSchema true
        (fun _ => [("foo", .vStr "x"), ("garbage", .vStr "y")]) 0).2 = 0 ∧
    (sanitizeQueryObjRef exampleSchema true
        (fun _ => [("foo", .vStr "x"), ("garbage", .vStr "y")]) 0).1 0 =
      [("foo", .vStr "x")] ∧
    (sanitizeQueryObjRef exampleSchema true
        (fun _ => [("foo", .vStr "x"), ("garbage", .vStr "y")]) 0).1 1 =
      [("foo", .vStr "x"), ("garbage", .vStr "y")] := by
  have h := sanitizeQuery_strict_in_place_mutation exampleSchema
    (fun _ => [("foo", .vStr "x"), ("garbage", .vStr "y")]) 0
  exact ⟨h.1, by rw [h.2.1]; rfl, h.2.2 1 (by decide)⟩

theorem prependLookupStep_ok {reg : Registry} {schema : Schema}
    {lk : Option (List (String × LookupSpecEntry))} {pfx : String}
    {js : Pipeline} (pl : Pipeline)
    (hj : joinStagesOf reg schema lk pfx = .ok js) :
    prependLookupStep reg schema lk pfx pl = .ok (js ++ pl) := by
  cases lk with
  | none =>
    obtain rfl : js = [] := by simpa [joinStagesOf] using hj.symm
    simp [prependLookupStep]
  | some l =>
    simp only [joinStagesOf] at hj
    simp [prependLookupStep, hj, Except.map]

theorem prependMatchStep_ok {schema : Schema} {mt : Option Query}
    {pfx : String} {fs : Pipeline} (pl : Pipeline)
    (hf : filterStagesOf schema mt pfx = .ok fs) :
    prependMatchStep schema mt pfx pl = .ok (fs ++ pl) := by
  cases mt with
  | none =>
    obtain rfl : fs = [] := by simpa [filterStagesOf] using hf.symm
    simp [prependMatchStep]
  | some q =>
    by_cases hq : queryTruthy q
    · simp only [filterStagesOf, hq, if_true] at hf
      simp [prependMatchStep, hq, hf, Except.map]
    · simp only [filterStagesOf, hq, if_false] at hf
      obtain rfl : fs = [] := by simpa using hf.symm
      simp [prependMatchStep, hq]

theorem appendPruneStep_ok {schema : Schema} {pr : Option Query}
    {ps : Pipeline} (pl : Pipeline)
    (hp : postFilterStagesOf schema pr = .ok ps) :
    appendPruneStep schema pr pl = .ok (pl ++ ps) := by
  cases pr with
  | none =>
    obtain rfl : ps = [] := by simpa [postFilterStagesOf] using hp.symm
    simp [appendPruneStep]
  | some q =>
    by_cases hq : queryTruthy q
    · simp only [postFilterStagesOf, hq, if_true] at hp
      simp [appendPruneStep, hq, hp, Except.map]
    · simp only [postFilterStagesOf, hq, if_false] at hp
      obtain rfl : ps = [] := by simpa using hp.symm
      simp [appendPruneStep, hq]

theorem appendGroupStep_eq (schema : Schema) (gp : Option GroupSpecs)
    (pl : Pipeline) :
    appendGroupStep schema gp pl = pl ++ groupStagesOf schema gp := by
  cases gp with
  | none => simp [appendGroupStep, groupStagesOf]
  | some g =>
    by_cases hg : groupTruthy g <;> simp [appendGroupStep, groupStagesOf, hg]

theorem appendSortStep_eq (schema : Schema) (st : Option Obj) (pl : Pipeline) :
    appendSortStep schema st pl = pl ++ sortStagesOf schema st := by
  cases st with
  | none => simp [appendSortStep, sortStagesOf]
  | some s => simp [appendSortStep, sortStagesOf]

/-- **C2.** For every schema, pipeline-factory spec and caller-supplied
intermediate pipeline, the factory returns the stages in exactly the order:
filter stages, join stages, the caller-supplied intermediate stages,
post-filter stages, group stages, sort stages — and an omitted sub-spec
contributes no stages. -/
theorem pipelineFactory_stage_order (reg : Registry) (schema : Schema)
    (specs : PipelineFactorySpecs) (pfx : String) (pl fs js ps : Pipeline)
    (hf : filterStagesOf schema specs.matchSpecs pfx = .ok fs)
    (hj : joinStagesOf reg schema specs.lookupSpecs pfx = .ok js)
    (hp : postFilterStagesOf schema specs.pruneSpecs = .ok ps) :
    pipelineFactory reg schema specs pfx pl =
      .ok (fs ++ js ++ pl ++ ps ++ groupStagesOf schema specs.groupSpecs ++
        sortStagesOf schema specs.sortSpecs) ∧
    (specs.matchSpecs = none → fs = []) ∧
    (specs.lookupSpecs = none → js = []) ∧
    (specs.pruneSpecs = none → ps = []) ∧
    (specs.groupSpecs = none → groupStagesOf schema specs.groupSpecs = []) ∧
    (specs.sortSpecs = none → sortStagesOf schema specs.sortSpecs = []) := by
  refine ⟨?_, ?_, ?_, ?_, ?_, ?_⟩
  · simp only [pipelineFactory, prependLookupStep_ok pl hj,
      prependMatchStep_ok (js ++ pl) hf, appendPruneStep_ok (fs ++ (js ++ pl)) hp,
      appendGroupStep_eq, appendSortStep_eq]
    simp [List.append_assoc]
  · intro h; rw [h] at hf; simpa [filterStagesOf] using hf.symm
  · intro h; rw [h] at hj; simpa [joinStagesOf] using hj.symm
  · intro h; rw [h] at hp; simpa [postFilterStagesOf] using hp.symm
  · intro h; rw [h]; rfl
  · intro h; rw [h]; rfl

theorem pipelineFactory_stage_order_witness :
    pipelineFactory [] exampleSchema
        { matchSpecs := some (.qObj [("foo", .vStr "x")]),
          pruneSpecs := some (.qObj [("bar", .vNum 1)]),
          groupSpecs := some (.gStr "foo"),
          sortSpecs := some [("foo", .vNum 1)] } ""
        [.matchStage [("mid", .vNum 7)]] =
      .ok [.matchStage [("foo", .vStr "x")],
           .matchStage [("mid", .vNum 7)],
           .matchStage [("bar", .vNum 1)],
           .groupStage [("_id", .vStr "$foo")],
           .sortStage [("foo", .vNum 1)]] := by
  have h := pipelineFactory_stage_order [] exampleSchema
    { matchSpecs := some (.qObj [("foo", .vStr "x")]),
      pruneSpecs := some (.qObj [("bar", .vNum 1)]),
      groupSpecs := some (.gStr "foo"),
      sortSpecs := some [("foo", .vNum 1)] } ""
    [.matchStage [("mid", .vNum 7)]]
    [.matchStage [("foo", .vStr "x")]] [] [.matchStage [("bar", .vNum 1)]]
    (by rfl) (by rfl) (by rfl)
  simpa using h.1

theorem string_append_cancel_left {a b c : String} (h : a ++ b = a ++ c) :
    b = c := by
  have hd : (a ++ b).data = (a ++ c).data := by rw [h]
  have hd2 : a.data ++ b.data = a.data ++ c.data := by
    simpa [String.data_append] using hd
  have := List.append_cancel_left hd2
  cases b; cases c
  exact congrArg String.mk this

theorem hasKey_append (o₁ o₂ : Obj) (k : String) :
    hasKey (o₁ ++ o₂) k = (hasKey o₁ k || hasKey o₂ k) := by
  simp [hasKey, List.any_append]

theorem setKey_of_not_hasKey {o : Obj} {k : String} (h : hasKey o k = false)
    (v : Value) : setKey o k v = o ++ [(k, v)] := by
  rw [setKey, h]
  simp

theorem prefixAssignLoop_go (pfx : String) :
    ∀ (o : Obj) (acc : Obj),
      (∀ kv ∈ o, hasKey acc (pfx ++ kv.1) = false) →
      (o.map Prod.fst).Nodup →
      o.foldl (fun acc kv => setKey acc (pfx ++ kv.1) kv.2) acc =
        acc ++ o.map (fun kv => (pfx ++ kv.1, kv.2)) := by
  intro o
  induction o with
  | nil => intro acc _ _; simp
  | cons kv rest ih =>
    intro acc hdisj hnodup
    have hk : hasKey acc (pfx ++ kv.1) = false := hdisj kv (by simp)
    rw [List.foldl_cons, setKey_of_not_hasKey hk]
    have hnd := hnodup
    simp only [List.map_cons, List.nodup_cons] at hnd
    rw [ih (acc ++ [(pfx ++ kv.1, kv.2)]) ?_ hnd.2]
    · simp
    · intro kv' hkv'
      rw [hasKey_append, hdisj kv' (by simp [hkv'])]
      have hne : kv'.1 ≠ kv.1 := by
        intro he
        exact hnd.1 (he ▸ List.mem_map_of_mem Prod.fst hkv')
      simp only [hasKey, List.any_cons, List.any_nil, Bool.or_false]
      apply beq_eq_false_iff_ne.mpr
      intro hcontra
      exact hne (string_append_cancel_left hcontra).symm

/-- **C7.** For every schema, object query and path prefix, the
filter-stage factory sanitizes in non-strict mode — preserving every key of
the input, declared in the schema or not — prefixes every resulting key
with the supplied prefix, and emits exactly one `$match` stage holding
exactly those prefixed keys with the original values. -/
theorem matchStageFactory_prefixes_all_keys (schema : Schema) (o : Obj)
    (pfx : String) (hnodup : (o.map Prod.fst).Nodup) :
    matchStageFactory schema (.qObj o) pfx =
      .ok [.matchStage (o.map (fun kv => (pfx ++ kv.1, kv.2)))] := by
  have hloop : prefixAssignLoop pfx o = o.map (fun kv => (pfx ++ kv.1, kv.2)) := by
    have h0 := prefixAssignLoop_go pfx o [] (fun kv _ => rfl) hnodup
    simpa [prefixAssignLoop] using h0
  simp [matchStageFactory, sanitizeQuery, hloop]

theorem matchStageFactory_prefixes_all_keys_witness :
    List.Nodup (List.map Prod.fst
      [("foo", Value.vStr "x"), ("garbage", Value.vStr "y")]) ∧
    matchStageFactory exampleSchema
        (.qObj [("foo", .vStr "x"), ("garbage", .vStr "y")]) "sub." =
      .ok [.matchStage [("sub.foo", .vStr "x"), ("sub.garbage", .vStr "y")]] := by
  refine ⟨by decide, ?_⟩
  have h := matchStageFactory_prefixes_all_keys exampleSchema
    [("foo", .vStr "x"), ("garbage", .vStr "y")] "sub." (by decide)
  simpa using h

theorem string_empty_append (s : String) : "" ++ s = s := rfl

/-- **C3.** For a schema whose field `ka` references a model resolving to
schema `B`, where `B`'s field `kb` references a model resolving to schema
`C`, the join-stage factory applied to the depth-2 spec
`(ka, nested (kb, true))` produces exactly four stages: two
`$lookup`/`$unwind` pairs, each `$unwind` preserving unmatched records as
null (`preserveNullAndEmptyArrays: true`), with the second pair's local and
output field paths prefixed by the first pair's target path `ka ++ "."`. -/
theorem lookupStageFactory_depth2 (reg : Registry) (S B C : Schema)
    (ka kb rB rC : String)
    (h1 : fieldRef (S.fieldSpecs ka) = some rB)
    (h2 : getModelS reg rB = .ok B)
    (h3 : fieldRef (B.fieldSpecs kb) = some rC)
    (h4 : getModelS reg rC = .ok C) :
    lookupStageFactory reg S [(ka, .nested [(kb, .terminal)])] "" "" =
      .ok [.lookupStage B.collection ka "_id" ka,
           .unwindStage ("$" ++ ka) true,
           .lookupStage C.collection (ka ++ "." ++ kb) "_id" (ka ++ "." ++ kb),
           .unwindStage ("$" ++ (ka ++ "." ++ kb)) true] := by
  simp only [lookupStageFactory, lookupStageEntry, h1, h2, h3, h4]
  simp [string_empty_append, String.append_assoc]

theorem lookupStageFactory_depth2_witness :
    lookupStageFactory exampleRegistry fooRefSchema
        [("aBar", .nested [("aBaz", .terminal)])] "" "" =
      .ok [.lookupStage "bars" "aBar" "_id" "aBar",
           .unwindStage "$aBar" true,
           .lookupStage "bazs" "aBar.aBaz" "_id" "aBar.aBaz",
           .unwindStage "$aBar.aBaz" true] := by
  have h := lookupStageFactory_depth2 exampleRegistry fooRefSchema barSchema
    bazSchema "aBar" "aBaz" "Bar" "Baz" (by rfl) (by rfl) (by rfl) (by rfl)
  simpa using h

/-- **C10.** For every schema, store and validation options,
`validateDocument` throws whenever its document argument is not a plain
object or is an object with zero keys — an empty document is always
rejected, regardless of any field constraint. -/
theorem validateDocument_rejects_empty_or_nonobject (schema : Schema)
    (st : Store) (opts : ModelValidateDocumentOptions) (doc : JSInput)
    (h : isNonemptyPlainObject doc = false) :
    ∃ e, validateDocument schema st doc opts = .error e := by
  cases doc with
  | prim v => exact ⟨"Invalid document provided", rfl⟩
  | obj o =>
    have hemp : o.isEmpty = true := by
      simpa [isNonemptyPlainObject] using h
    exact ⟨"Empty objects are not permitted", by simp [validateDocument, hemp]⟩

theorem validateDocument_rejects_empty_or_nonobject_witness :
    isNonemptyPlainObject (.obj []) = false ∧
    ∃ e, validateDocument exampleSchema [] (.obj []) {} = .error e :=
  ⟨rfl, validateDocument_rejects_empty_or_nonobject exampleSchema [] {}
    (.obj []) rfl⟩

/-- **C8 (counterexample).** An upsert request against a schema that does
not allow upserts raises no permission error when `skipHooks` is set: the
operation succeeds and the store gains the upserted document, refuting the
claim that every flag-disallowed operation fails pre-flight with the store
unchanged. -/
theorem updateOne_upsert_skipHooks_counterexample :
    upsertLockedSchema.allowUpsert ≠ some true ∧
    modelUpdateOne upsertLockedSchema [] (.qObj [("a", .vNum 2)])
        (.updateInput { set := some [("a", .vNum 1)] })
        { upsert := some true, skipHooks := some true } 0 oidX =
      (.ok (.success true),
       [("ups", [[("a", .vNum 1), ("_id", .vOid oidX)]])]) := by
  constructor
  · decide
  · rfl

/-- **C8 (amended).** A schema flag disallowing an operation makes that
operation fail synchronously before any store access, with the store
unchanged: `noInserts` for `insertOne`, `noUpdates` for `updateOne`,
`noDeletes` for `deleteOne`; an upsert request without `allowUpsert` fails
the same way provided the update does not skip the hooks (`skipHooks`
bypasses `beforeUpdate` and with it the upsert permission check). -/
theorem schema_flags_preflight (reg : Registry) (schema : Schema) (st : Store)
    (now : Nat) (fresh : ObjectID) :
    (∀ doc opts, schema.noInserts = some true →
      modelInsertOne schema st doc opts now fresh =
        (.error "Insertions are disallowed for this model", st)) ∧
    (∀ query update opts, schema.noUpdates = some true →
      modelUpdateOne schema st query update opts now fresh =
        (.error "Updates are disallowed for this model", st)) ∧
    (∀ query opts, schema.noDeletes = some true →
      modelDeleteOne reg schema query opts st =
        (.error "Deletions are disallowed for this model", st)) ∧
    (∀ query update opts, opts.upsert = some true →
      schema.allowUpsert ≠ some true → opts.skipHooks ≠ some true →
      ∃ e, modelUpdateOne schema st query update opts now fresh =
        (.error e, st)) := by
  refine ⟨?_, ?_, ?_, ?_⟩
  · intro doc opts h
    simp [modelInsertOne, h]
  · intro query update opts h
    simp [modelUpdateOne, h]
  · intro query opts h
    simp [modelDeleteOne, h]
  · intro query update opts hup hau hsk
    by_cases hnu : schema.noUpdates = some true
    · exact ⟨"Updates are disallowed for this model", by simp [modelUpdateOne, hnu]⟩
    · have hnu' : (schema.noUpdates == some true) = false :=
        beq_eq_false_iff_ne.mpr hnu
      have hsk' : (opts.skipHooks == some true) = false :=
        beq_eq_false_iff_ne.mpr hsk
      have hau' : (schema.allowUpsert == some true) = false :=
        beq_eq_false_iff_ne.mpr hau
      have hbu : beforeUpdate schema st query update opts now =
          .error "Attempting to upsert a document while upserting is disallowed in the schema" := by
        rw [beforeUpdate.eq_def, hup]
        simp [hau']
      refine ⟨"Attempting to upsert a document while upserting is disallowed in the schema", ?_⟩
      rw [modelUpdateOne.eq_def]
      simp [hnu', hsk', hbu]

theorem schema_flags_preflight_witness :
    lockedSchema.noInserts = some true ∧
    lockedSchema.noUpdates = some true ∧
    lockedSchema.noDeletes = some true ∧
    upsertLockedSchema.allowUpsert ≠ some true ∧
    modelInsertOne lockedSchema [] (some [("a", .vNum 1)]) {} 0 oidX =
      (.error "Insertions are disallowed for this model", []) ∧
    modelUpdateOne lockedSchema [] (.qObj [("a", .vNum 1)])
        (.updateInput { set := some [("a", .vNum 2)] }) {} 0 oidX =
      (.error "Updates are disallowed for this model", []) ∧
    modelDeleteOne cascadeRegistry lockedSchema (.qObj [("a", .vNum 1)]) {} [] =
      (.error "Deletions are disallowed for this model", []) ∧
    ∃ e, modelUpdateOne upsertLockedSchema [] (.qObj [("a", .vNum 1)])
        (.updateInput { set := some [("a", .vNum 2)] })
        { upsert := some true } 0 oidX = (.error e, []) := by
  have h1 := schema_flags_preflight cascadeRegistry lockedSchema [] 0 oidX
  have h2 := schema_flags_preflight cascadeRegistry upsertLockedSchema [] 0 oidX
  refine ⟨rfl, rfl, rfl, by decide, ?_, ?_, ?_, ?_⟩
  · exact h1.1 (some [("a", .vNum 1)]) {} rfl
  · exact h1.2.1 (.qObj [("a", .vNum 1)])
      (.updateInput { set := some [("a", .vNum 2)] }) {} rfl
  · exact h1.2.2.1 (.qObj [("a", .vNum 1)]) {} rfl
  · exact h2.2.2.2 (.qObj [("a", .vNum 1)])
      (.updateInput { set := some [("a", .vNum 2)] })
      { upsert := some true } rfl (by decide) (by decide)

theorem hasKey_filter_false {o : Obj} {p : String × Value → Bool} {k : String}
    (h : hasKey o k = false) : hasKey (o.filter p) k = false := by
  rw [hasKey, List.any_eq_false] at h ⊢
  intro kv hkv
  exact h kv (List.mem_of_mem_filter hkv)

theorem hasKey_map_setEntry (k' : String) (v : Value) :
    ∀ (o : Obj) (k : String),
      hasKey (o.map (fun kv => if kv.1 == k' then (k', v) else kv)) k =
        hasKey o k := by
  intro o k
  induction o with
  | nil => rfl
  | cons kv rest ih =>
    simp only [List.map_cons, hasKey, List.any_cons] at *
    rw [ih]
    by_cases hv : (kv.1 == k') = true
    · have hkeq : kv.1 = k' := eq_of_beq hv
      simp [hv, hkeq]
    · simp [hv]

theorem hasKey_setKey_present {o : Obj} {k' : String}
    (h : hasKey o k' = true) (v : Value) (k : String) :
    hasKey (setKey o k' v) k = hasKey o k := by
  rw [setKey]
  simp only [h, if_true]
  exact hasKey_map_setEntry k' v o k

theorem hasKey_setKey_ne {k k' : String} (hne : k ≠ k') (o : Obj) (v : Value) :
    hasKey (setKey o k' v) k = hasKey o k := by
  cases hk : hasKey o k' with
  | true => exact hasKey_setKey_present hk v k
  | false =>
    rw [setKey]
    simp only [hk, Bool.false_eq_true, if_false]
    rw [hasKey_append]
    have hone : hasKey [(k', v)] k = false := by
      simp only [hasKey, List.any_cons, List.any_nil, Bool.or_false]
      exact beq_eq_false_iff_ne.mpr (Ne.symm hne)
    simp [hone]

theorem formatFieldStep_hasKey (acc : Obj) (kv : String × FieldSpecs)
    (k : String) : hasKey (formatFieldStep acc kv) k = hasKey acc k := by
  rw [formatFieldStep]
  cases hp : hasKey acc kv.1 with
  | false => simp [hp]
  | true =>
    simp only [hp, if_true]
    have hacc2 : ∀ k2 : String,
        hasKey (match kv.2.format, getKey acc kv.1 with
          | some f, some v => setKey acc kv.1 (f v)
          | _, _ => acc) k2 = hasKey acc k2 := by
      intro k2
      cases hf : kv.2.format with
      | none => cases hg : getKey acc kv.1 <;> simp
      | some f =>
        cases hg : getKey acc kv.1 with
        | none => simp
        | some v => simp [hasKey_setKey_present hp]
    cases he : kv.2.encrypted with
    | false => simp [he, hacc2]
    | true =>
      simp only [he, if_true]
      cases hg2 : getKey (match kv.2.format, getKey acc kv.1 with
          | some f, some v => setKey acc kv.1 (f v)
          | _, _ => acc) kv.1 with
      | none => simp [hg2, hacc2]
      | some v =>
        simp only [hg2]
        have hpres : hasKey (match kv.2.format, getKey acc kv.1 with
            | some f, some v => setKey acc kv.1 (f v)
            | _, _ => acc) kv.1 = true := by
          rw [hacc2]; exact hp
        rw [hasKey_setKey_present hpres, hacc2]

theorem formatDocument_hasKey (schema : Schema) (d : Doc) (k : String) :
    hasKey (formatDocument schema d) k = hasKey d k := by
  rw [formatDocument]
  induction schema.fields generalizing d with
  | nil => rfl
  | cons kv rest ih => rw [List.foldl_cons, ih, formatFieldStep_hasKey]

theorem foldl_defaults_hasKey_false {k : String} :
    ∀ (l : List (String × FieldSpecs)) (o : Obj),
      hasKey o k = false →
      (∀ fs, (k, fs) ∈ l → fs.default = none) →
      hasKey (l.foldl defaultFieldStep o) k = false := by
  intro l
  induction l with
  | nil => intro o h _; exact h
  | cons kv rest ih =>
    intro o hacc hd
    rw [List.foldl_cons]
    apply ih
    · rw [defaultFieldStep]
      cases hp : hasKey o kv.1 with
      | true => simpa [hp] using hacc
      | false =>
        cases hdv : kv.2.default with
        | none => simpa [hp, hdv] using hacc
        | some dv =>
          have hne : k ≠ kv.1 := by
            intro he
            have hmem : (k, kv.2) ∈ kv :: rest := by
              rw [he]
              exact Prod.mk.eta ▸ List.mem_cons_self kv rest
            have hcon := hd kv.2 hmem
            rw [hdv] at hcon
            cases hcon
          simp only [hp, Bool.false_eq_true, if_false, hdv]
          rw [hasKey_setKey_ne hne]
          exact hacc
    · intro fs hm
      exact hd fs (List.mem_cons_of_mem kv hm)

theorem applyDefaults_hasKey_false {schema : Schema} {o : Obj} {k : String}
    (hk : hasKey o k = false)
    (hdef : ∀ fs, (k, fs) ∈ schema.fields → fs.default = none) :
    hasKey (applyDefaults schema o) k = false := by
  rw [applyDefaults]
  exact foldl_defaults_hasKey_false schema.fields o hk hdef

theorem renewDateField_hasKey_false {o : Obj} {key2 : String} {now : Nat}
    {k : String} (hk : hasKey o k = false) (hne : k ≠ key2) :
    hasKey (renewDateField o key2 now) k = false := by
  rw [renewDateField]
  cases hg : getKey o key2 with
  | none =>
    rw [hasKey_setKey_ne hne]
    exact hk
  | some v =>
    cases v <;> first
      | exact hk
      | (rw [hasKey_setKey_ne hne]; exact hk)

theorem fillTimestamps_hasKey_false {schema : Schema} {ig : Option Bool}
    {o : Obj} {now : Nat} {k : String} (hk : hasKey o k = false)
    (hts : (schema.timestamps && !(ig == some true)) = true →
      k ≠ "createdAt" ∧ k ≠ "updatedAt") :
    hasKey (fillTimestamps schema ig o now) k = false := by
  rw [fillTimestamps]
  cases hc : (schema.timestamps && !(ig == some true)) with
  | false => simpa using hk
  | true =>
    obtain ⟨h1, h2⟩ := hts hc
    simp only [if_true]
    exact renewDateField_hasKey_false (renewDateField_hasKey_false hk h1) h2

theorem assoc_nodup_unique {l : List (String × FieldSpecs)}
    (hnd : (l.map Prod.fst).Nodup) {k : String} {a b : FieldSpecs}
    (ha : (k, a) ∈ l) (hb : (k, b) ∈ l) : a = b := by
  induction l with
  | nil => cases ha
  | cons kv rest ih =>
    simp only [List.map_cons, List.nodup_cons] at hnd
    rcases List.mem_cons.mp ha with h1 | h1 <;>
      rcases List.mem_cons.mp hb with h2 | h2
    · rw [← h2] at h1
      exact (Prod.ext_iff.mp h1).2
    · exfalso
      have hkm : k ∈ rest.map Prod.fst := List.mem_map_of_mem Prod.fst h2
      have hk1 : kv.1 = k := by rw [← h1]
      exact hnd.1 (hk1 ▸ hkm)
    · exfalso
      have hkm : k ∈ rest.map Prod.fst := List.mem_map_of_mem Prod.fst h1
      have hk1 : kv.1 = k := by rw [← h2]
      exact hnd.1 (hk1 ▸ hkm)
    · exact ih hnd.2 h1 h2

theorem fieldSpecs_mem {schema : Schema} {k : String} {fs : FieldSpecs}
    (h : schema.fieldSpecs k = some fs) : (k, fs) ∈ schema.fields := by
  rw [Schema.fieldSpecs] at h
  cases hf : schema.fields.find? (fun kv => kv.1 == k) with
  | none => rw [hf] at h; cases h
  | some p =>
    rw [hf] at h
    have hpred := List.find?_some hf
    have hmem := List.mem_of_find?_eq_some hf
    obtain ⟨p1, p2⟩ := p
    have hk : p1 = k := by simpa using hpred
    have hfs : p2 = fs := by simpa using h
    rw [← hk, ← hfs]
    exact hmem

theorem requiredFieldsLoop_error {doc : Obj} :
    ∀ (fields : List (String × FieldSpecs)) (k : String) (fs : FieldSpecs),
      (k, fs) ∈ fields → fs.required = true → fs.default = none →
      hasKey doc k = false →
      ∃ e, requiredFieldsLoop doc fields = .error e := by
  intro fields
  induction fields with
  | nil => intro k fs h; cases h
  | cons kv rest ih =>
    obtain ⟨kv1, kv2⟩ := kv
    intro k fs hmem hreq hdef hk
    rcases List.mem_cons.mp hmem with h1 | h1
    · obtain ⟨rfl, rfl⟩ : kv1 = k ∧ kv2 = fs := by
        have h2 := Prod.ext_iff.mp h1
        exact ⟨h2.1.symm, h2.2.symm⟩
      have hskip : (!kv2.required ||
          (match kv2.default with
           | some dv => valueTruthy dv
           | none => false)) = false := by
        rw [hreq, hdef]
        rfl
      refine ⟨"Missing required field " ++ kv1, ?_⟩
      rw [requiredFieldsLoop]
      simp only [hskip, Bool.false_eq_true, if_false, hk]
    · cases hskip : (!kv2.required ||
          (match kv2.default with
           | some dv => valueTruthy dv
           | none => false)) with
      | true =>
        obtain ⟨e, he⟩ := ih k fs h1 hreq hdef hk
        refine ⟨e, ?_⟩
        rw [requiredFieldsLoop]
        simp only [hskip, if_true]
        exact he
      | false =>
        cases hp : hasKey doc kv1 with
        | true =>
          obtain ⟨e, he⟩ := ih k fs h1 hreq hdef hk
          refine ⟨e, ?_⟩
          rw [requiredFieldsLoop]
          simp only [hskip, Bool.false_eq_true, if_false, hp, if_true]
          exact he
        | false =>
          refine ⟨"Missing required field " ++ kv1, ?_⟩
          rw [requiredFieldsLoop]
          simp only [hskip, Bool.false_eq_true, if_false, hp]

theorem validateDocument_missing_required {schema : Schema} {st : Store}
    {o : Obj} {vopts : ModelValidateDocumentOptions} {k : String}
    {fs : FieldSpecs} (hmem : (k, fs) ∈ schema.fields)
    (hreq : fs.required = true) (hdef : fs.default = none)
    (hk : hasKey o k = false) (hstrict : vopts.strict = some true) :
    ∃ e, validateDocument schema st (.obj o) vopts = .error e := by
  rw [validateDocument]
  cases hemp : o.isEmpty with
  | true => exact ⟨"Empty objects are not permitted", by simp [hemp]⟩
  | false =>
    simp only [hemp, Bool.false_eq_true, if_false]
    cases hdl : docFieldsLoop schema o with
    | error e => exact ⟨e, rfl⟩
    | ok _ =>
      cases huq : (if !(vopts.ignoreUniqueIndex == some true) then
          uniqueIndexLoop schema st o schema.indexes else .ok ()) with
      | error e => exact ⟨e, rfl⟩
      | ok _ =>
        have hst : (vopts.strict == some true) = true := by
          rw [hstrict]; rfl
        obtain ⟨e, he⟩ := requiredFieldsLoop_error schema.fields k fs hmem
          hreq hdef hk
        exact ⟨e, by simp [hst, he]⟩

theorem beforeInsert_missing_required {schema : Schema} {st : Store}
    {doc : Obj} {opts : ModelInsertOneOptions} {now : Nat} {k : String}
    {fs : FieldSpecs} (hspec : schema.fieldSpecs k = some fs)
    (hreq : fs.required = true) (hdef : fs.default = none)
    (hnodup : (schema.fields.map Prod.fst).Nodup)
    (hdoc : hasKey doc k = false) (hstrict : opts.strict ≠ some false)
    (hts : (schema.timestamps && !(opts.ignoreTimestamps == some true)) = true →
      k ≠ "createdAt" ∧ k ≠ "updatedAt") :
    ∃ e, beforeInsert schema st doc opts now = .error e := by
  have hmem := fieldSpecs_mem hspec
  have hk1 : hasKey (sanitizeDocument schema doc) k = false :=
    hasKey_filter_false hdoc
  have hk2 : hasKey (fillTimestamps schema opts.ignoreTimestamps
      (sanitizeDocument schema doc) now) k = false :=
    fillTimestamps_hasKey_false hk1 hts
  have hdefs : ∀ fs2, (k, fs2) ∈ schema.fields → fs2.default = none := by
    intro fs2 hm2
    rw [assoc_nodup_unique hnodup hm2 hmem]
    exact hdef
  have hk3 : hasKey (applyDefaults schema (fillTimestamps schema
      opts.ignoreTimestamps (sanitizeDocument schema doc) now)) k = false :=
    applyDefaults_hasKey_false hk2 hdefs
  have hk4 : hasKey (formatDocument schema (applyDefaults schema
      (fillTimestamps schema opts.ignoreTimestamps
        (sanitizeDocument schema doc) now))) k = false := by
    rw [formatDocument_hasKey]
    exact hk3
  have hvs : (insertValidateOpts opts).strict = some true := by
    rw [insertValidateOpts]
    cases ho : opts.strict with
    | none => rfl
    | some b =>
      cases b with
      | true => rfl
      | false => exact absurd ho hstrict
  obtain ⟨e, he⟩ := validateDocument_missing_required hmem hreq hdef hk4 hvs
  exact ⟨e, by rw [beforeInsert, he]⟩

/-- **C4 (amended).** For a schema with a required field `k` that has no
default, inserting a document lacking `k` raises a validation error and
performs no store write — provided `k` is not one of the auto-managed
timestamp keys while the schema has timestamps on (those are filled before
validation), the caller does not override strict validation, and the
schema's field names are distinct (as JavaScript object keys always
are). -/
theorem insertOne_missing_required_rejected (schema : Schema) (st : Store)
    (doc : Obj) (opts : ModelInsertOneOptions) (now : Nat) (fresh : ObjectID)
    (k : String) (fs : FieldSpecs) (hspec : schema.fieldSpecs k = some fs)
    (hreq : fs.required = true) (hdef : fs.default = none)
    (hnodup : (schema.fields.map Prod.fst).Nodup)
    (hdoc : hasKey doc k = false) (hstrict : opts.strict ≠ some false)
    (hts : (schema.timestamps && !(opts.ignoreTimestamps == some true)) = true →
      k ≠ "createdAt" ∧ k ≠ "updatedAt") :
    ∃ e, modelInsertOne schema st (some doc) opts now fresh = (.error e, st) := by
  rw [modelInsertOne]
  cases hni : (schema.noInserts == some true) with
  | true => exact ⟨"Insertions are disallowed for this model", by simp [hni]⟩
  | false =>
    obtain ⟨e, he⟩ := @beforeInsert_missing_required schema st doc opts now
      k fs hspec hreq hdef hnodup hdoc hstrict hts
    exact ⟨e, by simp [hni, he]⟩

theorem insertOne_missing_required_rejected_witness :
    reqSchema.fieldSpecs "name" =
      some { type := .tString, required := true } ∧
    hasKey [("other", .vNum 1)] "name" = false ∧
    ∃ e, modelInsertOne reqSchema [] (some [("other", .vNum 1)]) {} 0 oidX =
      (.error e, []) := by
  refine ⟨rfl, rfl, ?_⟩
  exact insertOne_missing_required_rejected reqSchema [] [("other", .vNum 1)]
    {} 0 oidX "name" { type := .tString, required := true } rfl rfl rfl
    (by decide) rfl (by decide) (by decide)

/-- **C4 (counterexample).** With timestamps enabled, a schema may declare
`createdAt` itself as a required field with no default; inserting the
empty document then succeeds — the timestamp fill adds `createdAt` before
validation — and the store is written, refuting the claim for that
schema. -/
theorem insertOne_missing_required_counterexample :
    tsRequiredSchema.fieldSpecs "createdAt" =
      some { type := .tDate, required := true } ∧
    hasKey [] "createdAt" = false ∧
    modelInsertOne tsRequiredSchema [] (some []) {} 0 oidX =
      (.ok [("createdAt", .vDate 0), ("updatedAt", .vDate 0),
            ("_id", .vOid oidX)],
       [("tss", [[("createdAt", .vDate 0), ("updatedAt", .vDate 0),
                  ("_id", .vOid oidX)]])]) := by
  refine ⟨rfl, rfl, ?_⟩
  rfl

theorem beq_false_symm {a b : String} (h : (a == b) = false) :
    (b == a) = false := by
  cases hb : b == a with
  | false => rfl
  | true =>
    rw [eq_of_beq hb] at h
    simp at h

theorem getColl_setColl_self (st : Store) (c : String) (docs : List Doc) :
    getColl (setColl st c docs) c = docs := by
  rw [setColl]
  cases hex : st.any (fun kv => kv.1 == c) with
  | true =>
    simp only [if_true]
    rw [getColl, List.find?_map]
    have hcomp : ((fun kv : String × List Doc => kv.1 == c) ∘
        (fun kv => if kv.1 == c then (c, docs) else kv)) =
        (fun kv : String × List Doc => kv.1 == c) := by
      funext kv
      cases hkv : kv.1 == c with
      | true =>
        have hkeq : kv.1 = c := eq_of_beq hkv
        simp only [Function.comp, hkv, if_true]
        simp [hkeq]
      | false =>
        simp only [Function.comp, hkv, Bool.false_eq_true, if_false]
    rw [hcomp]
    obtain ⟨x, hx, hpx⟩ := List.any_eq_true.mp hex
    have hsome : (st.find? (fun kv => kv.1 == c)).isSome := by
      rw [List.find?_isSome]
      exact ⟨x, hx, hpx⟩
    obtain ⟨p, hp⟩ := Option.isSome_iff_exists.mp hsome
    have hpc := List.find?_some hp
    simp only at hpc
    rw [hp]
    have hpe : p.1 = c := eq_of_beq hpc
    simp [hpe]
  | false =>
    simp only [Bool.false_eq_true, if_false]
    rw [getColl, List.find?_append]
    have hnone : st.find? (fun kv => kv.1 == c) = none := by
      rw [List.find?_eq_none]
      intro x hx
      exact List.any_eq_false.mp hex x hx
    rw [hnone]
    simp [List.find?]

theorem getColl_setColl_other {c c' : String} (hne : (c' == c) = false)
    (st : Store) (docs : List Doc) :
    getColl (setColl st c docs) c' = getColl st c' := by
  have hcc' : (c == c') = false := beq_false_symm hne
  rw [setColl]
  cases hex : st.any (fun kv => kv.1 == c) with
  | true =>
    simp only [if_true]
    rw [getColl, getColl, List.find?_map]
    have hcomp : ((fun kv : String × List Doc => kv.1 == c') ∘
        (fun kv => if kv.1 == c then (c, docs) else kv)) =
        (fun kv : String × List Doc => kv.1 == c') := by
      funext kv
      cases hkv : kv.1 == c with
      | true =>
        have hkeq : kv.1 = c := eq_of_beq hkv
        simp only [Function.comp, hkv, if_true]
        rw [hkeq]
      | false =>
        simp only [Function.comp, hkv, Bool.false_eq_true, if_false]
    rw [hcomp]
    cases hf : st.find? (fun kv => kv.1 == c') with
    | none => rfl
    | some p =>
      have hpc := List.find?_some hf
      simp only at hpc
      have hpne : p.1 ≠ c := by
        rw [eq_of_beq hpc]
        intro h
        rw [h] at hne
        simp at hne
      simp [hpne]
  | false =>
    simp only [Bool.false_eq_true, if_false]
    rw [getColl, getColl, List.find?_append]
    have hone : List.find? (fun kv : String × List Doc => kv.1 == c')
        [(c, docs)] = none := by
      simp [List.find?, hcc']
    rw [hone]
    cases st.find? (fun kv => kv.1 == c') <;> rfl

theorem storeSubset_refl (st : Store) : storeSubset st st :=
  fun _ _ h => h

theorem storeSubset_trans {a b c : Store} (h1 : storeSubset a b)
    (h2 : storeSubset b c) : storeSubset a c :=
  fun cn d hd => h2 cn d (h1 cn d hd)

theorem setColl_filter_subset (st : Store) (c : String)
    (p : Doc → Bool) :
    storeSubset (setColl st c ((getColl st c).filter p)) st := by
  intro c' d hd
  cases hc : c' == c with
  | true =>
    rw [eq_of_beq hc] at hd ⊢
    rw [getColl_setColl_self] at hd
    exact List.mem_of_mem_filter hd
  | false =>
    rw [getColl_setColl_other hc] at hd
    exact hd

theorem modelDeleteManyDefault_qObj {target : Schema}
    (hflag : deleteManyDisallowed target = false) (st : Store) (q : Obj) :
    ∃ b, modelDeleteManyDefault target st (.qObj q) =
      (.ok b, setColl st target.collection
        ((getColl st target.collection).filter
          (fun d => !(matchesFilter d
            (q.filter (fun kv => keepKey target kv.1)))))) := by
  rw [modelDeleteManyDefault]
  simp only [hflag, Bool.false_eq_true, if_false]
  have hsan : sanitizeQuery target (.qObj q) true =
      .ok (q.filter (fun kv => keepKey target kv.1)) := by
    simp [sanitizeQuery, stripKeys_self_eq_filter]
  rw [hsan]
  simp only [collDeleteMany]
  by_cases hn : ((getColl st target.collection).length -
      ((getColl st target.collection).filter
        (fun d => !(matchesFilter d
          (q.filter (fun kv => keepKey target kv.1))))).length) = 0
  · exact ⟨false, by simp [hn]⟩
  · exact ⟨true, by simp [hn]⟩

theorem cascadeFieldsLoop_ok (tm : String) {target : Schema} (X : ObjectID)
    (hflag : deleteManyDisallowed target = false) :
    ∀ (entries : List (String × FieldSpecs)) (st : Store),
      ∃ st2, cascadeFieldsLoop tm target X entries st = (.ok (), st2) ∧
        storeSubset st2 st := by
  intro entries
  induction entries with
  | nil => intro st; exact ⟨st, rfl, storeSubset_refl st⟩
  | cons kv rest ih =>
    obtain ⟨k, fs⟩ := kv
    intro st
    rw [cascadeFieldsLoop]
    cases hr : fs.ref == some tm with
    | false =>
      obtain ⟨st2, hst2, hsub⟩ := ih st
      exact ⟨st2, by simp [hr, hst2], hsub⟩
    | true =>
      obtain ⟨b, hb⟩ := modelDeleteManyDefault_qObj hflag st [(k, .vOid X)]
      obtain ⟨st2, hst2, hsub⟩ := ih (setColl st target.collection
        ((getColl st target.collection).filter
          (fun d => !(matchesFilter d
            ([(k, .vOid X)].filter (fun kv => keepKey target kv.1))))))
      refine ⟨st2, by simp [hr, hb, hst2], ?_⟩
      exact storeSubset_trans hsub (setColl_filter_subset st target.collection _)

theorem cascadeFieldsLoop_establishes {tm : String} {target : Schema}
    {X : ObjectID} {refKey : String} {fsB : FieldSpecs}
    (hflag : deleteManyDisallowed target = false)
    (hkeep : keepKey target refKey = true)
    (href : (fsB.ref == some tm) = true) :
    ∀ (entries : List (String × FieldSpecs)) (st : Store),
      (refKey, fsB) ∈ entries →
      ∃ st2, cascadeFieldsLoop tm target X entries st = (.ok (), st2) ∧
        ∀ d ∈ getColl st2 target.collection,
          ¬(getKey d refKey = some (.vOid X)) := by
  intro entries
  induction entries with
  | nil => intro st h; cases h
  | cons kv rest ih =>
    obtain ⟨k0, fs0⟩ := kv
    intro st hmem
    rcases List.mem_cons.mp hmem with h1 | h1
    · obtain ⟨rfl, rfl⟩ : k0 = refKey ∧ fs0 = fsB := by
        have h2 := Prod.ext_iff.mp h1
        exact ⟨h2.1.symm, h2.2.symm⟩
      rw [cascadeFieldsLoop]
      obtain ⟨b, hb⟩ := modelDeleteManyDefault_qObj hflag st [(k0, .vOid X)]
      have hq : ([(k0, Value.vOid X)].filter
          (fun kv => keepKey target kv.1)) = [(k0, Value.vOid X)] := by
        simp [hkeep]
      obtain ⟨st2, hloop, hsub⟩ := cascadeFieldsLoop_ok tm X hflag rest
        (setColl st target.collection ((getColl st target.collection).filter
          (fun d => !(matchesFilter d ([(k0, Value.vOid X)].filter
            (fun kv => keepKey target kv.1))))))
      refine ⟨st2, by simp [href, hb, hloop], ?_⟩
      intro d hd hcontra
      have hd0 := hsub target.collection d hd
      rw [getColl_setColl_self] at hd0
      have hflt := List.of_mem_filter hd0
      rw [hq] at hflt
      simp only [matchesFilter, List.all_cons, List.all_nil, Bool.and_true,
        Bool.not_eq_true'] at hflt
      rw [hcontra] at hflt
      simp at hflt
    · rw [cascadeFieldsLoop]
      cases hr : fs0.ref == some tm with
      | false =>
        obtain ⟨st2, hloop, hP⟩ := ih st h1
        exact ⟨st2, by simp [hr, hloop], hP⟩
      | true =>
        obtain ⟨b, hb⟩ := modelDeleteManyDefault_qObj hflag st [(k0, .vOid X)]
        obtain ⟨st2, hloop, hP⟩ := ih (setColl st target.collection
          ((getColl st target.collection).filter
            (fun d => !(matchesFilter d ([(k0, Value.vOid X)].filter
              (fun kv => keepKey target kv.1)))))) h1
        exact ⟨st2, by simp [hr, hb, hloop], hP⟩

theorem cascadeNamesLoop_ok {reg : Registry} (tm : String) (X : ObjectID) :
    ∀ (names : List String) (st : Store),
      (∀ n ∈ names, ∃ s, getModelS reg n = .ok s ∧
        deleteManyDisallowed s = false) →
      ∃ st2, cascadeNamesLoop reg tm X names st = (.ok (), st2) ∧
        storeSubset st2 st := by
  intro names
  induction names with
  | nil => intro st _; exact ⟨st, rfl, storeSubset_refl st⟩
  | cons n rest ih =>
    intro st hall
    obtain ⟨s, hs, hflag⟩ := hall n (List.mem_cons_self n rest)
    obtain ⟨stf, hf2, hsubf⟩ := cascadeFieldsLoop_ok tm X hflag s.fields st
    obtain ⟨st2, h2, hsub2⟩ := ih stf
      (fun m hm => hall m (List.mem_cons_of_mem n hm))
    refine ⟨st2, ?_, storeSubset_trans hsub2 hsubf⟩
    rw [cascadeNamesLoop, hs]
    simp [hf2, h2]

theorem cascadeNamesLoop_establishes {reg : Registry} {tm : String}
    {X : ObjectID} {nB : String} {B : Schema} {refKey : String}
    {fsB : FieldSpecs}
    (hB : getModelS reg nB = .ok B)
    (hfield : (refKey, fsB) ∈ B.fields)
    (href : (fsB.ref == some tm) = true) :
    ∀ (names : List String) (st : Store),
      (∀ n ∈ names, ∃ s, getModelS reg n = .ok s ∧
        deleteManyDisallowed s = false) →
      nB ∈ names →
      ∃ st2, cascadeNamesLoop reg tm X names st = (.ok (), st2) ∧
        ∀ d ∈ getColl st2 B.collection,
          ¬(getKey d refKey = some (.vOid X)) := by
  have hkeep : keepKey B refKey = true := by
    have hf : B.hasField refKey = true := by
      rw [Schema.hasField, List.any_eq_true]
      exact ⟨(refKey, fsB), hfield, by simp⟩
    simp [keepKey, hf]
  intro names
  induction names with
  | nil => intro st _ h; cases h
  | cons n rest ih =>
    intro st hall hmem
    obtain ⟨s, hs, hflag⟩ := hall n (List.mem_cons_self n rest)
    rcases List.mem_cons.mp hmem with h1 | h1
    · subst h1
      have hsB : s = B := by
        have h2 := hs.symm.trans hB
        exact Except.ok.inj h2
      subst hsB
      obtain ⟨stf, hf2, hP⟩ := cascadeFieldsLoop_establishes hflag hkeep href
        s.fields st hfield
      obtain ⟨st2, h2, hsub2⟩ := cascadeNamesLoop_ok tm X rest stf
        (fun m hm => hall m (List.mem_cons_of_mem _ hm))
      refine ⟨st2, ?_, fun d hd => hP d (hsub2 s.collection d hd)⟩
      rw [cascadeNamesLoop, hs]
      simp [hf2, h2]
    · obtain ⟨stf, hf2, hsubf⟩ := cascadeFieldsLoop_ok tm X hflag s.fields st
      obtain ⟨st2, h2, hP⟩ := ih stf
        (fun m hm => hall m (List.mem_cons_of_mem _ hm)) h1
      refine ⟨st2, ?_, hP⟩
      rw [cascadeNamesLoop, hs]
      simp [hf2, h2]

/-- **C1 (counterexample).** Schema `A` cascades into `B`, whose `aRef`
field references `A`; deleting the `A`-document with identifier `oidX`
through `deleteOne` in its default mode (no `returnDoc`) removes the
`A`-document but leaves the `B`-document whose `aRef` equals `oidX` in the
store: with no deleted document handed to `afterDelete`, no cascade delete
is issued, refuting the claim for this delete operation. -/
theorem deleteOne_no_cascade_counterexample :
    cascadeASchema.cascade = some ["B"] ∧
    (cascadeBSchema.fieldSpecs "aRef").map FieldSpecs.ref =
      some (some "A") ∧
    getKey [("_id", .vOid oidY), ("aRef", .vOid oidX)] "aRef" =
      some (.vOid oidX) ∧
    modelDeleteOne cascadeRegistry cascadeASchema
        (.qObj [("_id", .vOid oidX)]) {} cascadeStore =
      (.ok (.success true),
       [("acoll", []),
        ("bcoll", [[("_id", .vOid oidY), ("aRef", .vOid oidX)]])]) := by
  exact ⟨rfl, rfl, rfl, rfl⟩

/-- The `deleteOne` half of the cascade guarantee: after `deleteOne` in
return-document mode removes an `A`-document whose identifier is `X`,
every `B`-document whose `refKey` equals `X` is deleted — provided every
model in the cascade list resolves and permits multiple deletions. -/
theorem deleteOne_returnDoc_cascades (reg : Registry) (A B : Schema)
    (st st' : Store) (q : Query) (names : List String) (nB refKey : String)
    (fsB : FieldSpecs) (X : ObjectID) (d : Doc)
    (hcas : A.cascade = some names)
    (hnames : ∀ n ∈ names, ∃ s, getModelS reg n = .ok s ∧
      deleteManyDisallowed s = false)
    (hmem : nB ∈ names)
    (hB : getModelS reg nB = .ok B)
    (hfield : (refKey, fsB) ∈ B.fields)
    (href : fsB.ref = some A.model)
    (hrun : modelDeleteOne reg A q { returnDoc := some true } st =
      (.ok (.doc d), st'))
    (hid : getKey d "_id" = some (.vOid X)) :
    ∀ bd ∈ getColl st' B.collection,
      ¬(getKey bd refKey = some (.vOid X)) := by
  rw [modelDeleteOne] at hrun
  cases hnd : (A.noDeletes == some true) with
  | true =>
    rw [hnd] at hrun
    simp at hrun
  | false =>
    rw [hnd] at hrun
    simp only [Bool.false_eq_true, if_false] at hrun
    cases hsan : sanitizeQuery A q true with
    | error e =>
      rw [hsan] at hrun
      simp at hrun
    | ok qq =>
      rw [hsan] at hrun
      simp only [show (({ returnDoc := some true } :
          ModelDeleteOneOptions).returnDoc == some true) = true from rfl,
        if_true] at hrun
      rcases hfd : collFindOneAndDelete st A.collection qq with ⟨st2, od⟩
      rw [hfd] at hrun
      cases od with
      | none => simp at hrun
      | some d0 =>
        simp only [afterDelete.eq_def] at hrun
        cases hg : getKey d0 "_id" with
        | none =>
          rw [hg] at hrun
          simp only [Prod.mk.injEq, Except.ok.injEq,
            WriteOneResult.doc.injEq] at hrun
          obtain ⟨hd0, hst⟩ := hrun
          rw [hd0, hid] at hg
          exact absurd hg (by simp)
        | some v =>
          cases v with
          | vOid x =>
            rw [hg] at hrun
            simp only [cascadeDelete.eq_def, hcas] at hrun
            obtain ⟨st3, hloop, hP⟩ := @cascadeNamesLoop_establishes reg
              A.model x nB B refKey fsB hB hfield (by simp [href])
              names st2 hnames hmem
            rw [hloop] at hrun
            simp only [Prod.mk.injEq, Except.ok.injEq,
              WriteOneResult.doc.injEq] at hrun
            obtain ⟨hd0, hst⟩ := hrun
            rw [hd0, hid] at hg
            have hx : x = X := by
              have h2 := Option.some.inj hg
              exact (Value.vOid.inj h2).symm
            intro bd hbd
            rw [← hst] at hbd
            have hPbd := hP bd hbd
            intro hc
            apply hPbd
            rw [hc, hx]
          | vNull =>
            rw [hg] at hrun
            simp only [Prod.mk.injEq, Except.ok.injEq,
              WriteOneResult.doc.injEq] at hrun
            obtain ⟨hd0, hst⟩ := hrun
            rw [hd0, hid] at hg
            exact absurd (Option.some.inj hg) (by simp)
          | vBool b =>
            rw [hg] at hrun
            simp only [Prod.mk.injEq, Except.ok.injEq,
              WriteOneResult.doc.injEq] at hrun
            obtain ⟨hd0, hst⟩ := hrun
            rw [hd0, hid] at hg
            exact absurd (Option.some.inj hg) (by simp)
          | vNum n =>
            rw [hg] at hrun
            simp only [Prod.mk.injEq, Except.ok.injEq,
              WriteOneResult.doc.injEq] at hrun
            obtain ⟨hd0, hst⟩ := hrun
            rw [hd0, hid] at hg
            exact absurd (Option.some.inj hg) (by simp)
          | vStr s =>
            rw [hg] at hrun
            simp only [Prod.mk.injEq, Except.ok.injEq,
              WriteOneResult.doc.injEq] at hrun
            obtain ⟨hd0, hst⟩ := hrun
            rw [hd0, hid] at hg
            exact absurd (Option.some.inj hg) (by simp)
          | vDate t =>
            rw [hg] at hrun
            simp only [Prod.mk.injEq, Except.ok.injEq,
              WriteOneResult.doc.injEq] at hrun
            obtain ⟨hd0, hst⟩ := hrun
            rw [hd0, hid] at hg
            exact absurd (Option.some.inj hg) (by simp)

theorem afterDeleteMany_ok {reg : Registry} {A : Schema}
    {names : List String} (hcas : A.cascade = some names)
    (hnames : ∀ n ∈ names, ∃ s, getModelS reg n = .ok s ∧
      deleteManyDisallowed s = false) :
    ∀ (ds : List Doc) (st : Store),
      ∃ st2, afterDeleteMany reg A ds st = (.ok (), st2) ∧
        storeSubset st2 st := by
  intro ds
  induction ds with
  | nil => intro st; exact ⟨st, rfl, storeSubset_refl st⟩
  | cons d0 rest ih =>
    intro st
    cases hg : getKey d0 "_id" with
    | none =>
      obtain ⟨st2, h2, hsub2⟩ := ih st
      exact ⟨st2, by rw [afterDeleteMany]; simp only [hg, h2], hsub2⟩
    | some v =>
      cases v
      case vOid x =>
        obtain ⟨stc, hc, hsubc⟩ := cascadeNamesLoop_ok A.model x names st hnames
        obtain ⟨st2, h2, hsub2⟩ := ih stc
        refine ⟨st2, ?_, storeSubset_trans hsub2 hsubc⟩
        rw [afterDeleteMany]
        simp only [hg, cascadeDelete.eq_def, hcas, hc, h2]
      all_goals
        obtain ⟨st2, h2, hsub2⟩ := ih st
      all_goals
        exact ⟨st2, by rw [afterDeleteMany]; simp only [hg, h2], hsub2⟩

theorem afterDeleteMany_establishes {reg : Registry} {A B : Schema}
    {names : List String} {nB refKey : String} {fsB : FieldSpecs}
    {X : ObjectID} (hcas : A.cascade = some names)
    (hnames : ∀ n ∈ names, ∃ s, getModelS reg n = .ok s ∧
      deleteManyDisallowed s = false)
    (hmem : nB ∈ names) (hB : getModelS reg nB = .ok B)
    (hfield : (refKey, fsB) ∈ B.fields)
    (href : (fsB.ref == some A.model) = true) :
    ∀ (ds : List Doc) (st : Store) (d : Doc), d ∈ ds →
      getKey d "_id" = some (.vOid X) →
      ∃ st2, afterDeleteMany reg A ds st = (.ok (), st2) ∧
        ∀ bd ∈ getColl st2 B.collection,
          ¬(getKey bd refKey = some (.vOid X)) := by
  intro ds
  induction ds with
  | nil => intro st d h; cases h
  | cons d0 rest ih =>
    intro st d hd hid
    rcases List.mem_cons.mp hd with h1 | h1
    · subst h1
      obtain ⟨stc, hc, hP⟩ := @cascadeNamesLoop_establishes reg A.model X nB B
        refKey fsB hB hfield href names st hnames hmem
      obtain ⟨st2, h2, hsub2⟩ := afterDeleteMany_ok hcas hnames rest stc
      refine ⟨st2, ?_, fun bd hbd => hP bd (hsub2 B.collection bd hbd)⟩
      rw [afterDeleteMany]
      simp only [hid, cascadeDelete.eq_def, hcas, hc, h2]
    · cases hg : getKey d0 "_id" with
      | none =>
        obtain ⟨st2, h2, hP⟩ := ih st d h1 hid
        exact ⟨st2, by rw [afterDeleteMany]; simp only [hg, h2], hP⟩
      | some v =>
        cases v
        case vOid x =>
          obtain ⟨stc, hc, hsubc⟩ := cascadeNamesLoop_ok A.model x names st
            hnames
          obtain ⟨st2, h2, hP⟩ := ih stc d h1 hid
          refine ⟨st2, ?_, hP⟩
          rw [afterDeleteMany]
          simp only [hg, cascadeDelete.eq_def, hcas, hc, h2]
        all_goals
          obtain ⟨st2, h2, hP⟩ := ih st d h1 hid
        all_goals
          exact ⟨st2, by rw [afterDeleteMany]; simp only [hg, h2], hP⟩

/-- The `deleteMany` half of the cascade guarantee: after `deleteMany` in
return-documents mode removes the matching `A`-documents, then for every
returned document whose identifier is `X`, every `B`-document whose
`refKey` equals `X` is deleted — provided every model in the cascade list
resolves and permits multiple deletions. -/
theorem deleteMany_returnDocs_cascades (reg : Registry) (A B : Schema)
    (st st' : Store) (q : Query) (names : List String) (nB refKey : String)
    (fsB : FieldSpecs) (X : ObjectID) (ds : List Doc) (d : Doc)
    (hcas : A.cascade = some names)
    (hnames : ∀ n ∈ names, ∃ s, getModelS reg n = .ok s ∧
      deleteManyDisallowed s = false)
    (hmem : nB ∈ names)
    (hB : getModelS reg nB = .ok B)
    (hfield : (refKey, fsB) ∈ B.fields)
    (href : fsB.ref = some A.model)
    (hrun : modelDeleteMany reg A q { returnDocs := some true } st =
      (.ok (.docs ds), st'))
    (hd : d ∈ ds) (hid : getKey d "_id" = some (.vOid X)) :
    ∀ bd ∈ getColl st' B.collection,
      ¬(getKey bd refKey = some (.vOid X)) := by
  simp only [modelDeleteMany] at hrun
  cases hflagA : deleteManyDisallowed A with
  | true =>
    rw [hflagA] at hrun
    simp at hrun
  | false =>
    rw [hflagA] at hrun
    simp only [Bool.false_eq_true, if_false] at hrun
    cases hsan : sanitizeQuery A q true with
    | error e =>
      simp only [hsan] at hrun
      simp at hrun
    | ok qq =>
      simp only [hsan,
        show (({ returnDocs := some true } :
          ModelDeleteManyOptions).returnDocs == some true) = true from rfl,
        if_true] at hrun
      rcases hdl : deleteDocsLoop A.collection
          (collFindMany st A.collection qq) st with ⟨st2, results⟩
      simp only [hdl, afterDelete.eq_def] at hrun
      obtain ⟨st3, h3, hsub3⟩ := afterDeleteMany_ok hcas hnames results st2
      simp only [h3, Prod.mk.injEq, Except.ok.injEq,
        WriteManyResult.docs.injEq] at hrun
      obtain ⟨hres, hst⟩ := hrun
      obtain ⟨st4, h4, hP⟩ := @afterDeleteMany_establishes reg A B names nB
        refKey fsB X hcas hnames hmem hB hfield (by simp [href]) results st2
        d (by rw [hres]; exact hd) hid
      have heq : st4 = st3 := congrArg Prod.snd (h4.symm.trans h3)
      intro bd hbd
      apply hP bd
      rw [heq, hst]
      exact hbd

/-- **C1 (amended).** For schema `A` whose cascade list names model `nB`
resolving to schema `B`, where `B`'s field `refKey` references `A`:
cascading delete runs exactly when the delete operation returns the
deleted document(s).  After `deleteOne` with `returnDoc` removes an
`A`-document whose identifier is `X`, and after `deleteMany` with
`returnDocs` removes the matching `A`-documents, then for every deleted
document carrying identifier `X`, every `B`-document whose `refKey`
equals `X` is deleted — provided every model in the cascade list resolves
and permits multiple deletions.  In default mode `afterDelete` receives no
document and no cascade runs (see the counterexample). -/
theorem returnDocuments_delete_cascades (reg : Registry) (A B : Schema)
    (st : Store) (q : Query) (names : List String) (nB refKey : String)
    (fsB : FieldSpecs) (X : ObjectID)
    (hcas : A.cascade = some names)
    (hnames : ∀ n ∈ names, ∃ s, getModelS reg n = .ok s ∧
      deleteManyDisallowed s = false)
    (hmem : nB ∈ names)
    (hB : getModelS reg nB = .ok B)
    (hfield : (refKey, fsB) ∈ B.fields)
    (href : fsB.ref = some A.model) :
    (∀ (st' : Store) (d : Doc),
      modelDeleteOne reg A q { returnDoc := some true } st =
        (.ok (.doc d), st') →
      getKey d "_id" = some (.vOid X) →
      ∀ bd ∈ getColl st' B.collection,
        ¬(getKey bd refKey = some (.vOid X))) ∧
    (∀ (st' : Store) (ds : List Doc) (d : Doc),
      modelDeleteMany reg A q { returnDocs := some true } st =
        (.ok (.docs ds), st') →
      d ∈ ds →
      getKey d "_id" = some (.vOid X) →
      ∀ bd ∈ getColl st' B.collection,
        ¬(getKey bd refKey = some (.vOid X))) := by
  constructor
  · intro st' d hrun hid
    exact deleteOne_returnDoc_cascades reg A B st st' q names nB refKey fsB
      X d hcas hnames hmem hB hfield href hrun hid
  · intro st' ds d hrun hd hid
    exact deleteMany_returnDocs_cascades reg A B st st' q names nB refKey
      fsB X ds d hcas hnames hmem hB hfield href hrun hd hid

theorem returnDocuments_delete_cascades_witness :
    modelDeleteOne cascadeRegistry cascadeASchema
        (.qObj [("_id", .vOid oidX)]) { returnDoc := some true }
        cascadeStore =
      (.ok (.doc [("_id", .vOid oidX)]), [("acoll", []), ("bcoll", [])]) ∧
    modelDeleteMany cascadeRegistry cascadeASchema
        (.qObj [("_id", .vOid oidX)]) { returnDocs := some true }
        cascadeStore =
      (.ok (.docs [[("_id", .vOid oidX)]]),
       [("acoll", []), ("bcoll", [])]) ∧
    (∀ bd ∈ getColl [(("acoll" : String), ([] : List Doc)),
        (("bcoll" : String), ([] : List Doc))] "bcoll",
      ¬(getKey bd "aRef" = some (.vOid oidX))) ∧
    (∀ bd ∈ getColl [(("acoll" : String), ([] : List Doc)),
        (("bcoll" : String), ([] : List Doc))] "bcoll",
      ¬(getKey bd "aRef" = some (.vOid oidX))) := by
  have h := returnDocuments_delete_cascades cascadeRegistry cascadeASchema
    cascadeBSchema cascadeStore (.qObj [("_id", .vOid oidX)]) ["B"] "B"
    "aRef" { type := .tObjectID, ref := some "A" } oidX
    rfl
    (by
      intro n hn
      simp only [List.mem_singleton] at hn
      subst hn
      exact ⟨cascadeBSchema, rfl, rfl⟩)
    (by simp)
    rfl
    (by simp [cascadeBSchema])
    rfl
  refine ⟨rfl, rfl, ?_, ?_⟩
  · exact h.1 [("acoll", []), ("bcoll", [])] [("_id", .vOid oidX)] rfl rfl
  · exact h.2 [("acoll", []), ("bcoll", [])] [[("_id", .vOid oidX)]]
      [("_id", .vOid oidX)] rfl (by simp) rfl

end MongoDBODM
